import Mathlib

/- Verification of the Uniswap-v3-style fixed-point math library in
   src/math/unimath.py: tick/price conversions, liquidity calculus over a
   square-root price range, and single swap-step simulation.

   Embedding conventions.  Python arbitrary-precision integers are embedded
   as `ℕ`/`ℤ`; Python's integer floor division `//` on nonnegative operands
   is `Nat` division.  Python's true division `/` produces IEEE-754 binary64
   floats; CPython's `int / int` (long_true_divide) and int-to-float
   conversions are correctly rounded (nearest, ties to even), and binary
   float operations follow IEEE-754.  These are embedded exactly: a finite
   double is stored as its exact rational value, and `roundQ` below is an
   executable round-to-nearest-ties-to-even onto the binary64 grid. -/

namespace Unimath

set_option maxRecDepth 40000

attribute [local semireducible] Rat.add Rat.mul Rat.inv Rat.sub

/-- Q96 fixed-point scaling constant, from the source: `q96 = 2**96`. -/
def q96 : ℕ := 2 ^ 96

/-- Minimum tick allowed, from the source: `min_tick = -887272`. -/
def min_tick : ℤ := -887272

/-- Maximum tick allowed, from the source: `max_tick = 887272`. -/
def max_tick : ℤ := 887272

/-- Price-increasing swap step (selling asset1 for asset0).  The source
    computes `price_diff = (amount_in * q96) // liq` and
    `price_next = sqrtp_cur + price_diff`; on nonnegative integers Python's
    `//` is `Nat` division. -/
def price_next_sell1 (liq sqrtp_cur amount_in : ℕ) : ℕ :=
  sqrtp_cur + (amount_in * q96) / liq

/-- Price-decreasing swap step (selling asset0 for asset1).  The source
    computes `int((liq * q96 * sqrtp_cur) // (liq * q96 + amount_in * sqrtp_cur))`;
    on integer inputs `//` is floor division and `int` is the identity. -/
def price_next_sell0 (liq sqrtp_cur amount_in : ℕ) : ℕ :=
  (liq * q96 * sqrtp_cur) / (liq * q96 + amount_in * sqrtp_cur)

/-- Spec formula for the sell-asset1 step, written with an exact rational
    floor: `sqrtPriceNext = sqrtPriceCurrent + floor(amountIn * 2^96 / L)`. -/
def price_next_sell1_spec (liq sqrtp_cur amount_in : ℕ) : ℤ :=
  sqrtp_cur + ⌊(amount_in * 2 ^ 96 : ℚ) / liq⌋

/-- Spec formula for the sell-asset0 step, written with an exact rational
    floor: `floor(L * 2^96 * sqrtPriceCurrent / (L * 2^96 + amountIn * sqrtPriceCurrent))`. -/
def price_next_sell0_spec (liq sqrtp_cur amount_in : ℕ) : ℤ :=
  ⌊(liq * 2 ^ 96 * sqrtp_cur : ℚ) / (liq * 2 ^ 96 + amount_in * sqrtp_cur)⌋

/-- Error kinds raised by the embedded CPython operations. -/
inductive PyErr where
  | ValueError
  | ZeroDivisionError
  | OverflowError
deriving DecidableEq

deriving instance DecidableEq for Except

/-- Fuel-driven base-2 logarithm.  Structural recursion on the fuel, so that
    kernel reduction (and hence `decide`) can evaluate it. -/
def nlog2Aux : ℕ → ℕ → ℕ
  | 0, _ => 0
  | fuel + 1, n => if 2 ≤ n then nlog2Aux fuel (n / 2) + 1 else 0

/-- Base-2 logarithm: the greatest `k` with `2^k ≤ n` (and 0 at 0). -/
def nlog2 (n : ℕ) : ℕ := nlog2Aux n n

/-- Fuel-driven integer square root by binary search, maintaining the
    invariant `lo^2 ≤ n < hi^2`.  Structural recursion on the fuel. -/
def nsqrtAux : ℕ → ℕ → ℕ → ℕ → ℕ
  | 0, lo, _, _ => lo
  | fuel + 1, lo, hi, n =>
    if hi ≤ lo + 1 then lo
    else
      let mid := (lo + hi) / 2
      if mid * mid ≤ n then nsqrtAux fuel mid hi n else nsqrtAux fuel lo mid n

/-- Integer square root: the greatest `s` with `s^2 ≤ n`. -/
def nsqrt (n : ℕ) : ℕ := nsqrtAux (n + 2) 0 (n + 1) n

/-- Integer power of two as a rational, computed through natural-number
    powers so that kernel reduction evaluates it in logarithmic depth. -/
def q2pow (k : ℤ) : ℚ :=
  if 0 ≤ k then ((2 ^ k.toNat : ℕ) : ℚ) else (((2 ^ (-k).toNat : ℕ) : ℚ))⁻¹

/-- Binade exponent of a positive rational: the unique `e` with
    `2^e ≤ q < 2^(e+1)` (0 for `q ≤ 0`). -/
def qlog2 (q : ℚ) : ℤ :=
  if q ≤ 0 then 0
  else
    let e0 : ℤ := (nlog2 q.num.toNat : ℤ) - (nlog2 q.den : ℤ)
    if q < q2pow e0 then e0 - 1 else e0

/-- Mantissa grid exponent of the binary64 binade `e`, clamped below to the
    subnormal grid `2^(-1074)`. -/
def gridExp (e : ℤ) : ℤ := max (e - 52) (-1074)

/-- Mantissa count selected by round-to-nearest (ties to even) of a
    nonnegative rational at grid `2^g`: the floor mantissa `n`, or `n + 1`,
    according to the position of `q` relative to the midpoint `(n + 1/2)*2^g`. -/
def mantRound (q : ℚ) (g : ℤ) : ℕ :=
  let n : ℕ := ⌊q / q2pow g⌋.toNat
  if ((2 * n + 1 : ℕ) : ℚ) * q2pow g < 2 * q then n + 1
  else if 2 * q < ((2 * n + 1 : ℕ) : ℚ) * q2pow g then n
  else if n % 2 = 0 then n else n + 1

/-- Round-to-nearest, ties-to-even, of a nonnegative rational onto the
    binary64 grid; `none` denotes overflow to infinity. -/
def roundPos (q : ℚ) : Option ℚ :=
  if q ≤ 0 then some 0
  else
    let g : ℤ := gridExp (qlog2 q)
    if (mantRound q g : ℚ) * q2pow g < q2pow 1024 then some ((mantRound q g : ℚ) * q2pow g)
    else none

/-- Round a rational to the nearest binary64 value (ties to even), the sign
    handled symmetrically as IEEE-754 does; `none` is overflow. -/
def roundQ (q : ℚ) : Option ℚ :=
  if 0 ≤ q then roundPos q else (roundPos (-q)).map (fun r => -r)

/-- Floor of the square root of a rational (0 for negatives). -/
def ratSqrtFloor (q : ℚ) : ℕ := nsqrt ⌊q⌋.toNat

/-- Mantissa count selected by the square-root rounding: the floor of the
    square root of the scaled radicand, or its successor, decided by
    comparing the radicand against the square of the midpoint (ties to
    even). -/
def sqrtMant (r : ℚ) : ℕ :=
  if ((2 * ratSqrtFloor r + 1 : ℕ) : ℚ) ^ 2 < 4 * r then ratSqrtFloor r + 1
  else if 4 * r < ((2 * ratSqrtFloor r + 1 : ℕ) : ℚ) ^ 2 then ratSqrtFloor r
  else if ratSqrtFloor r % 2 = 0 then ratSqrtFloor r else ratSqrtFloor r + 1

/-- Correctly-rounded (nearest, ties-to-even) binary64 square root of a
    nonnegative rational.  CPython's `math.sqrt` is the IEEE-754 square root
    of a correctly-rounded conversion of its argument, and the IEEE-754
    square root is itself correctly rounded; square roots of finite doubles
    never overflow or go subnormal, so no clamping is needed. -/
def sqrtPos (q : ℚ) : ℚ :=
  if q ≤ 0 then 0
  else (sqrtMant (q / q2pow (2 * (qlog2 q / 2 - 52))) : ℚ) * q2pow (qlog2 q / 2 - 52)

/-- A CPython float: a finite binary64 stored as its exact rational value,
    an infinity, or a NaN.  The library only ever computes nonnegative
    values, so a single unsigned infinity suffices. -/
inductive PyFloat where
  | fin (q : ℚ)
  | inf
  | nan
deriving DecidableEq

/-- A CPython number: an arbitrary-precision `int` or a `float`. -/
inductive PyNum where
  | int (z : ℤ)
  | float (f : PyFloat)
deriving DecidableEq

/-- Conversion of an exact rational (in particular a CPython `int`) to a
    double: correctly rounded; `OverflowError` out of range, as
    `PyLong_AsDouble` raises. -/
def toFQ (q : ℚ) : Except PyErr ℚ :=
  match roundQ q with
  | some r => .ok r
  | none => .error .OverflowError

/-- IEEE-754 multiplication on the embedded floats (overflow goes to
    infinity, silently, as CPython float arithmetic does). -/
def fmul (a b : PyFloat) : PyFloat :=
  match a, b with
  | .nan, _ => .nan
  | _, .nan => .nan
  | .inf, .inf => .inf
  | .inf, .fin q => if q = 0 then .nan else .inf
  | .fin q, .inf => if q = 0 then .nan else .inf
  | .fin x, .fin y =>
    match roundQ (x * y) with
    | some r => .fin r
    | none => .inf

/-- IEEE-754 division on the embedded floats, with CPython's check first:
    a zero divisor raises `ZeroDivisionError`. -/
def fdiv (a b : PyFloat) : Except PyErr PyFloat :=
  match b with
  | .fin q =>
    if q = 0 then .error .ZeroDivisionError
    else
      match a with
      | .nan => .ok .nan
      | .inf => .ok .inf
      | .fin x =>
        match roundQ (x / q) with
        | some r => .ok (.fin r)
        | none => .ok .inf
  | .inf =>
    match a with
    | .nan => .ok .nan
    | .inf => .ok .nan
    | .fin _ => .ok (.fin 0)
  | .nan => .ok .nan

/-- Python `*`: exact on `int * int`; an `int` operand of a float
    multiplication is first converted (correctly rounded) to a double. -/
def pyMul (a b : PyNum) : Except PyErr PyNum :=
  match a, b with
  | .int x, .int y => .ok (.int (x * y))
  | .int x, .float f => do
    let xf ← toFQ (x : ℚ)
    .ok (.float (fmul (.fin xf) f))
  | .float f, .int y => do
    let yf ← toFQ (y : ℚ)
    .ok (.float (fmul f (.fin yf)))
  | .float f, .float g => .ok (.float (fmul f g))

/-- Python `/` (true division).  `int / int` is CPython's
    `long_true_divide`: one correctly-rounded conversion of the exact
    quotient, raising `ZeroDivisionError` on a zero divisor and
    `OverflowError` when the quotient overflows the double range.  A float
    operand follows IEEE-754 with the int operand converted first. -/
def pyDiv (a b : PyNum) : Except PyErr PyNum :=
  match a, b with
  | .int x, .int y =>
    if y = 0 then .error .ZeroDivisionError
    else
      match roundQ ((x : ℚ) / (y : ℚ)) with
      | some r => .ok (.float (.fin r))
      | none => .error .OverflowError
  | .int x, .float f => do
    let xf ← toFQ (x : ℚ)
    let r ← fdiv (.fin xf) f
    .ok (.float r)
  | .float f, .int y => do
    let yf ← toFQ (y : ℚ)
    let r ← fdiv f (.fin yf)
    .ok (.float r)
  | .float f, .float g => do
    let r ← fdiv f g
    .ok (.float r)

/-- Truncation toward zero, Python's `int(float)` on finite values. -/
def ratTrunc (q : ℚ) : ℤ := if 0 ≤ q then ⌊q⌋ else -⌊-q⌋

/-- Python `int(x)`: identity on ints, truncation toward zero on finite
    floats, `OverflowError` on infinities, `ValueError` on NaN. -/
def pyInt (a : PyNum) : Except PyErr ℤ :=
  match a with
  | .int z => .ok z
  | .float (.fin q) => .ok (ratTrunc q)
  | .float .inf => .error .OverflowError
  | .float .nan => .error .ValueError

/-- Range normalization shared by the four liquidity-calculus functions:
    the source's `if pa > pb: pa, pb = pb, pa`. -/
def norm2 (pa pb : ℤ) : ℤ × ℤ := if pa > pb then (pb, pa) else (pa, pb)

/-- liquidity0: embedded from
    `return (amount * (pa * pb) / q96) / (pb - pa)` after the swap
    normalization; the two `/` are Python true division. -/
def liquidity0 (amount : PyNum) (pa pb : ℤ) : Except PyErr PyNum := do
  let t1 ← pyMul amount (.int ((norm2 pa pb).1 * (norm2 pa pb).2))
  let t2 ← pyDiv t1 (.int (q96 : ℤ))
  pyDiv t2 (.int ((norm2 pa pb).2 - (norm2 pa pb).1))

/-- liquidity1: embedded from `return amount * q96 / (pb - pa)` after the
    swap normalization. -/
def liquidity1 (amount : PyNum) (pa pb : ℤ) : Except PyErr PyNum := do
  let t1 ← pyMul amount (.int (q96 : ℤ))
  pyDiv t1 (.int ((norm2 pa pb).2 - (norm2 pa pb).1))

/-- calc_amount0: embedded from
    `return int(liq * q96 * (pb - pa) / pb / pa)` after the swap
    normalization. -/
def calc_amount0 (liq : PyNum) (pa pb : ℤ) : Except PyErr ℤ := do
  let t1 ← pyMul liq (.int (q96 : ℤ))
  let t2 ← pyMul t1 (.int ((norm2 pa pb).2 - (norm2 pa pb).1))
  let t3 ← pyDiv t2 (.int (norm2 pa pb).2)
  let t4 ← pyDiv t3 (.int (norm2 pa pb).1)
  pyInt t4

/-- calc_amount1: embedded from `return int(liq * (pb - pa) / q96)` after
    the swap normalization. -/
def calc_amount1 (liq : PyNum) (pa pb : ℤ) : Except PyErr ℤ := do
  let t1 ← pyMul liq (.int ((norm2 pa pb).2 - (norm2 pa pb).1))
  let t2 ← pyDiv t1 (.int (q96 : ℤ))
  pyInt t2

/-- Bounded exact binary search for the greatest `i` above `lo` with
    `1.0001^i ≤ p` (assuming `1.0001^lo ≤ p < 1.0001^hi`). -/
def flSearch : ℕ → ℚ → ℤ → ℤ → ℤ
  | 0, _, lo, _ => lo
  | fuel + 1, p, lo, hi =>
    if hi ≤ lo + 1 then lo
    else
      let mid := (lo + hi) / 2
      if (10001 / 10000 : ℚ) ^ mid ≤ p then flSearch fuel p mid hi
      else flSearch fuel p lo mid

/-- price_to_tick: the source computes `math.floor(math.log(p, 1.0001))`.
    CPython's `math.log` raises ValueError for any nonpositive argument.
    The value branch is idealized to the exact `floor(log_1.0001 p)` via
    bounded binary search, since the source computes it through the
    platform libm whose exact rounding is unspecified; the claims settled
    here touch only the error branch. -/
def price_to_tick (p : ℚ) : Except PyErr ℤ :=
  if p ≤ 0 then .error .ValueError
  else .ok (flSearch 64 p (-(2 ^ 25)) (2 ^ 25))

/-- price_to_sqrtp: embedded from `int(math.sqrt(p) * q96)`.  The price
    argument is converted to a double (raising OverflowError out of double
    range); `math.sqrt` raises ValueError on negative arguments and is the
    correctly-rounded IEEE-754 square root otherwise; the multiplication by
    `q96` and the final `int(...)` follow the float model above. -/
def price_to_sqrtp (p : ℚ) : Except PyErr ℤ := do
  let q ← toFQ p
  if q < 0 then .error .ValueError
  else do
    let t ← pyMul (.float (.fin (sqrtPos q))) (.int (q96 : ℤ))
    pyInt t

/-- tick_to_sqrtp, modelled with exact real arithmetic: the source computes
    `int((1.0001 ** (t / 2)) * q96)` in doubles through the platform `pow`;
    this embedding uses the exact value `floor(1.0001^(t/2) * 2^96)`, which
    equals `Nat.sqrt` of `floor(1.0001^t * 2^192)`.  Note the source applies
    no range check whatever to `t`. -/
def tick_to_sqrtp (t : ℤ) : ℕ :=
  nsqrt (((10001 / 10000 : ℚ) ^ t * 2 ^ 192).floor.toNat)

/-- Output amount reported by the sell-asset1 swap step: the source computes
    `amount_out = calc_amount0(liq, price_next, sqrtp_cur)`. -/
def amount_out_sell1 (liq sqrtp_cur amount_in : ℕ) : Except PyErr ℤ :=
  calc_amount0 (.int (liq : ℤ)) ((price_next_sell1 liq sqrtp_cur amount_in : ℕ) : ℤ)
    ((sqrtp_cur : ℕ) : ℤ)

/-- Output amount reported by the sell-asset0 swap step: the source computes
    `amount_out = calc_amount1(liq, price_next, sqrtp_cur)`. -/
def amount_out_sell0 (liq sqrtp_cur amount_in : ℕ) : Except PyErr ℤ :=
  calc_amount1 (.int (liq : ℤ)) ((price_next_sell0 liq sqrtp_cur amount_in : ℕ) : ℤ)
    ((sqrtp_cur : ℕ) : ℤ)

/-- Settled input amount re-derived by the sell-asset1 swap step: the source
    computes `amount_in = calc_amount1(liq, price_next, sqrtp_cur)`. -/
def amount_in_settled_sell1 (liq sqrtp_cur amount_in : ℕ) : Except PyErr ℤ :=
  calc_amount1 (.int (liq : ℤ)) ((price_next_sell1 liq sqrtp_cur amount_in : ℕ) : ℤ)
    ((sqrtp_cur : ℕ) : ℤ)

/-- Spec reading of liquidityFromAmount0, with exact rational arithmetic:
    `amount0 * (sqrtPriceA * sqrtPriceB) / 2^96 / (sqrtPriceB - sqrtPriceA)`
    after the range normalization. -/
def liquidity0_spec (amount : ℚ) (pa pb : ℤ) : ℚ :=
  amount * (((norm2 pa pb).1 : ℚ) * ((norm2 pa pb).2 : ℚ)) / 2 ^ 96 /
    (((norm2 pa pb).2 : ℚ) - ((norm2 pa pb).1 : ℚ))

/-- Spec reading of amount0FromLiquidity: the floor of the exact
    `liquidity * 2^96 * (sqrtPriceB - sqrtPriceA) / sqrtPriceB / sqrtPriceA`
    after the range normalization. -/
def calc_amount0_spec (liq : ℚ) (pa pb : ℤ) : ℤ :=
  ⌊liq * 2 ^ 96 * (((norm2 pa pb).2 : ℚ) - ((norm2 pa pb).1 : ℚ)) /
    ((norm2 pa pb).2 : ℚ) / ((norm2 pa pb).1 : ℚ)⌋

/-- Spec reading of amount1FromLiquidity: the floor of the exact
    `liquidity * (sqrtPriceB - sqrtPriceA) / 2^96` after the range
    normalization. -/
def calc_amount1_spec (liq : ℚ) (pa pb : ℤ) : ℤ :=
  ⌊liq * (((norm2 pa pb).2 : ℚ) - ((norm2 pa pb).1 : ℚ)) / 2 ^ 96⌋

/-- Nonnegativity predicate on the embedded floats.  NaN and infinity count
    as vacuously nonnegative: `pyInt` never turns them into an integer. -/
def nnF : PyFloat → Prop
  | .fin q => 0 ≤ q
  | .inf => True
  | .nan => True

/-- Nonnegativity predicate on embedded Python numbers. -/
def nn : PyNum → Prop
  | .int z => 0 ≤ z
  | .float f => nnF f

/-- Natural-number division is the floor of the exact rational quotient. -/
lemma natDiv_eq_ratFloor (m n : ℕ) : ((m / n : ℕ) : ℤ) = ⌊(m : ℚ) / n⌋ := by
  have h1 : ⌊(m : ℚ) / n⌋₊ = m / n := by
    rw [Nat.floor_div_nat (m : ℚ) n, Nat.floor_natCast]
  rw [← h1, Int.natCast_floor_eq_floor (by positivity)]

/-- C1: for positive liquidity, positive current square-root price, and a
    positive integer input amount, the swap step computes the next
    square-root price exactly by the spec formulas: selling asset1 yields
    `p + floor(a * 2^96 / L)`, and selling asset0 yields
    `floor(L * 2^96 * p / (L * 2^96 + a * p))`. -/
theorem swap_step_price_formulas (L p a : ℕ)
    (hL : 0 < L) (hp : 0 < p) (ha : 0 < a) :
    (price_next_sell1 L p a : ℤ) = price_next_sell1_spec L p a ∧
    (price_next_sell0 L p a : ℤ) = price_next_sell0_spec L p a := by
  constructor
  · unfold price_next_sell1 price_next_sell1_spec
    rw [Nat.cast_add, natDiv_eq_ratFloor]
    congr 2
    · push_cast [q96]
      ring
  · unfold price_next_sell0 price_next_sell0_spec
    rw [natDiv_eq_ratFloor]
    congr 1
    push_cast [q96]
    ring

/-- Witness for C1 at L = 2, p = 3, a = 5. -/
theorem swap_step_price_formulas_witness :
    0 < 2 ∧ 0 < 3 ∧ 0 < 5 ∧
    ((price_next_sell1 2 3 5 : ℤ) = price_next_sell1_spec 2 3 5 ∧
     (price_next_sell0 2 3 5 : ℤ) = price_next_sell0_spec 2 3 5) :=
  ⟨by decide, by decide, by decide,
   swap_step_price_formulas 2 3 5 (by decide) (by decide) (by decide)⟩

/-- C6 counterexample: with L = 2^96 + 1, p = 1, a = 1 the sell-asset1 step
    leaves the square-root price unchanged (the floored price increment is
    zero), so the step does not strictly increase the price even though the
    input amount, liquidity and price are all strictly positive. -/
theorem sell1_not_strict_counterexample :
    price_next_sell1 (2 ^ 96 + 1) 1 1 = 1 := by decide

/-- C6 amended: selling asset0 strictly decreases the square-root price for
    every positive input, liquidity and price; selling asset1 never decreases
    it, strictly increases it when `L ≤ a * 2^96`, and leaves it exactly
    unchanged when `a * 2^96 < L` — so the increase is strict exactly when
    the floored increment `(a * 2^96) // L` is nonzero. -/
theorem swap_step_price_direction (L p a : ℕ)
    (hL : 0 < L) (hp : 0 < p) (ha : 0 < a) :
    price_next_sell0 L p a < p ∧
    p ≤ price_next_sell1 L p a ∧
    (L ≤ a * q96 → p < price_next_sell1 L p a) ∧
    (a * q96 < L → price_next_sell1 L p a = p) := by
  refine ⟨?_, ?_, ?_, ?_⟩
  · unfold price_next_sell0
    have hpos : 0 < L * q96 + a * p := by
      have : 0 < L * q96 := Nat.mul_pos hL (by unfold q96; positivity)
      omega
    rw [Nat.div_lt_iff_lt_mul hpos]
    have h1 : 0 < a * p * p := by positivity
    calc L * q96 * p < L * q96 * p + a * p * p := by omega
    _ = p * (L * q96 + a * p) := by ring
  · exact Nat.le_add_right _ _
  · intro hle
    have h1 : 1 ≤ (a * q96) / L := (Nat.one_le_div_iff hL).mpr hle
    exact Nat.lt_add_of_pos_right h1
  · intro hlt
    unfold price_next_sell1
    have h0 : (a * q96) / L = 0 := Nat.div_eq_of_lt hlt
    omega

/-- Witness for the amended C6 at two points: L = 2, p = 3, a = 5, where
    `L ≤ a * 2^96` holds and the price strictly increases, and
    L = 2^96 + 1, p = 1, a = 1, where `a * 2^96 < L` holds and the price
    stays exactly put. -/
theorem swap_step_price_direction_witness :
    (0 < 2 ∧ 0 < 3 ∧ 0 < 5 ∧ 2 ≤ 5 * q96 ∧
      (price_next_sell0 2 3 5 < 3 ∧
       3 ≤ price_next_sell1 2 3 5 ∧
       (2 ≤ 5 * q96 → 3 < price_next_sell1 2 3 5) ∧
       (5 * q96 < 2 → price_next_sell1 2 3 5 = 3))) ∧
    (0 < 2 ^ 96 + 1 ∧ 0 < 1 ∧ 1 * q96 < 2 ^ 96 + 1 ∧
      (price_next_sell0 (2 ^ 96 + 1) 1 1 < 1 ∧
       1 ≤ price_next_sell1 (2 ^ 96 + 1) 1 1 ∧
       (2 ^ 96 + 1 ≤ 1 * q96 → 1 < price_next_sell1 (2 ^ 96 + 1) 1 1) ∧
       (1 * q96 < 2 ^ 96 + 1 → price_next_sell1 (2 ^ 96 + 1) 1 1 = 1))) :=
  ⟨⟨by decide, by decide, by decide, by decide,
    swap_step_price_direction 2 3 5 (by decide) (by decide) (by decide)⟩,
   ⟨by decide, by decide, by decide,
    swap_step_price_direction (2 ^ 96 + 1) 1 1 (by decide) (by decide) (by decide)⟩⟩

lemma nlog2Aux_spec (fuel : ℕ) : ∀ n : ℕ, 1 ≤ n → n ≤ fuel →
    2 ^ nlog2Aux fuel n ≤ n ∧ n < 2 ^ (nlog2Aux fuel n + 1) := by
  induction fuel with
  | zero => intro n h1 h2; omega
  | succ fuel ih =>
    intro n h1 h2
    rw [nlog2Aux]
    by_cases h : 2 ≤ n
    · rw [if_pos h]
      obtain ⟨ihl, ihr⟩ := ih (n / 2) (by omega) (by omega)
      constructor
      · calc 2 ^ (nlog2Aux fuel (n / 2) + 1) = 2 * 2 ^ nlog2Aux fuel (n / 2) := by ring
        _ ≤ 2 * (n / 2) := by omega
        _ ≤ n := by omega
      · calc n < 2 * (n / 2) + 2 := by omega
        _ ≤ 2 * 2 ^ (nlog2Aux fuel (n / 2) + 1) := by omega
        _ = 2 ^ (nlog2Aux fuel (n / 2) + 1 + 1) := by ring
    · rw [if_neg h]
      simp only [pow_zero, pow_one]
      omega

lemma nlog2_spec (n : ℕ) (h1 : 1 ≤ n) :
    2 ^ nlog2 n ≤ n ∧ n < 2 ^ (nlog2 n + 1) :=
  nlog2Aux_spec n n h1 le_rfl

lemma nsqrtAux_spec (fuel : ℕ) : ∀ lo hi n : ℕ, lo * lo ≤ n → n < hi * hi →
    lo < hi → hi - lo ≤ 2 ^ fuel →
    nsqrtAux fuel lo hi n * nsqrtAux fuel lo hi n ≤ n ∧
    n < (nsqrtAux fuel lo hi n + 1) * (nsqrtAux fuel lo hi n + 1) := by
  induction fuel with
  | zero =>
    intro lo hi n hlo hhi hlt hfuel
    rw [nsqrtAux]
    have : hi = lo + 1 := by omega
    subst this
    exact ⟨hlo, hhi⟩
  | succ fuel ih =>
    intro lo hi n hlo hhi hlt hfuel
    rw [nsqrtAux]
    by_cases h : hi ≤ lo + 1
    · rw [if_pos h]
      have : hi = lo + 1 := by omega
      subst this
      exact ⟨hlo, hhi⟩
    · rw [if_neg h]
      have hpow : 2 ^ (fuel + 1) = 2 ^ fuel + 2 ^ fuel := by ring
      by_cases hm : ((lo + hi) / 2) * ((lo + hi) / 2) ≤ n
      · simp only [hm, if_true]
        exact ih ((lo + hi) / 2) hi n hm hhi (by omega) (by omega)
      · simp only [hm, if_false]
        exact ih lo ((lo + hi) / 2) n hlo (by omega) (by omega) (by omega)

lemma nsqrt_spec (n : ℕ) :
    nsqrt n * nsqrt n ≤ n ∧ n < (nsqrt n + 1) * (nsqrt n + 1) := by
  have h1 : n < (n + 1) * (n + 1) := by nlinarith
  have h2 : n + 1 ≤ 2 ^ (n + 2) := by
    have := Nat.lt_two_pow (n + 1)
    have : (2 : ℕ) ^ (n + 1) ≤ 2 ^ (n + 2) := Nat.pow_le_pow_right (by omega) (by omega)
    omega
  exact nsqrtAux_spec (n + 2) 0 (n + 1) n (by omega) h1 (by omega) (by omega)

/-- The integer square root is monotone. -/
lemma nsqrt_le_nsqrt {a b : ℕ} (h : a ≤ b) : nsqrt a ≤ nsqrt b := by
  by_contra hc
  push_neg at hc
  have h1 := (nsqrt_spec a).1
  have h2 := (nsqrt_spec b).2
  have h3 : (nsqrt b + 1) * (nsqrt b + 1) ≤ nsqrt a * nsqrt a :=
    Nat.mul_le_mul hc hc
  omega

/-- The integer square root increases strictly past the next square. -/
lemma nsqrt_lt_nsqrt {a b : ℕ} (h : (nsqrt a + 1) * (nsqrt a + 1) ≤ b) :
    nsqrt a < nsqrt b := by
  by_contra hc
  push_neg at hc
  have h2 := (nsqrt_spec b).2
  have h3 : (nsqrt b + 1) * (nsqrt b + 1) ≤ (nsqrt a + 1) * (nsqrt a + 1) :=
    Nat.mul_le_mul (by omega) (by omega)
  omega

lemma q2pow_eq_zpow (k : ℤ) : q2pow k = (2 : ℚ) ^ k := by
  unfold q2pow
  split
  · rw [show k = (k.toNat : ℤ) by omega]
    push_cast
    rw [zpow_natCast, Int.toNat_natCast]
  · rw [show k = -((-k).toNat : ℤ) by omega]
    push_cast
    rw [zpow_neg, zpow_natCast]
    congr 2
    omega

/-- The range normalization is symmetric in its two arguments. -/
lemma norm2_comm (a b : ℤ) : norm2 a b = norm2 b a := by
  unfold norm2
  split <;> split <;> simp_all <;> omega

/-- C4: each of the four liquidity-calculus operations is invariant under
    swapping its two square-root-price arguments, for every amount (or
    liquidity) and every pair of distinct positive square-root prices: the
    shared normalization makes both argument orders compute the identical
    expression. -/
theorem liquidity_calculus_range_order_invariance (x a b : ℤ)
    (ha : 0 < a) (hb : 0 < b) (hab : a ≠ b) :
    liquidity0 (.int x) a b = liquidity0 (.int x) b a ∧
    liquidity1 (.int x) a b = liquidity1 (.int x) b a ∧
    calc_amount0 (.int x) a b = calc_amount0 (.int x) b a ∧
    calc_amount1 (.int x) a b = calc_amount1 (.int x) b a := by
  refine ⟨?_, ?_, ?_, ?_⟩
  · unfold liquidity0
    rw [norm2_comm]
  · unfold liquidity1
    rw [norm2_comm]
  · unfold calc_amount0
    rw [norm2_comm]
  · unfold calc_amount1
    rw [norm2_comm]

/-- Witness for C4 at x = 7, a = 3, b = 5. -/
theorem liquidity_calculus_range_order_invariance_witness :
    (0 : ℤ) < 3 ∧ (0 : ℤ) < 5 ∧ (3 : ℤ) ≠ 5 ∧
    (liquidity0 (.int 7) 3 5 = liquidity0 (.int 7) 5 3 ∧
     liquidity1 (.int 7) 3 5 = liquidity1 (.int 7) 5 3 ∧
     calc_amount0 (.int 7) 3 5 = calc_amount0 (.int 7) 5 3 ∧
     calc_amount1 (.int 7) 3 5 = calc_amount1 (.int 7) 5 3) :=
  ⟨by decide, by decide, by decide,
   liquidity_calculus_range_order_invariance 7 3 5 (by decide) (by decide) (by decide)⟩

/-- C3 counterexample: at amt = 2^60 + 200 and sqrt prices 2^96, 2^97 the
    float round-trip amount0FromLiquidity(liquidityFromAmount0(amt, a, b), a, b)
    returns 2^60 + 256, which exceeds amt: the correctly-rounded conversion
    of the exact intermediate quotient rounds its 61-bit mantissa up. -/
theorem amount0_round_trip_counterexample :
    (liquidity0 (.int (2 ^ 60 + 200)) (2 ^ 96) (2 ^ 97) >>= fun l =>
      calc_amount0 l (2 ^ 96) (2 ^ 97)) = .ok (2 ^ 60 + 256) ∧
    ¬ ((2 ^ 60 + 256 : ℤ) ≤ 2 ^ 60 + 200) := by
  constructor
  · decide
  · decide

/-- C10 counterexample: with L = a = 2^60 + 200 and p = 2^96 the sell-asset1
    step moves the price by exactly 2^96, and the settled input re-derived by
    calc_amount1 comes out as 2^60 + 256 > a, because the float division by
    q96 rounds the exact (unrepresentable) integer quotient up. -/
theorem settled_amount1_counterexample :
    amount_in_settled_sell1 (2 ^ 60 + 200) (2 ^ 96) (2 ^ 60 + 200) = .ok (2 ^ 60 + 256) ∧
    ¬ ((2 ^ 60 + 256 : ℤ) ≤ (2 ^ 60 + 200 : ℤ)) := by
  constructor
  · decide
  · decide

/-- C5 counterexample: with liquidity 2^96 + 1, current sqrt price 2^96 and
    input amount 1 (all strictly positive), the floored price increment is
    zero, the price does not move, and the reported output amount is 0, not
    strictly positive. -/
theorem swap_output_zero_counterexample :
    amount_out_sell1 (2 ^ 96 + 1) (2 ^ 96) 1 = .ok 0 := by decide

lemma q2pow_pos (k : ℤ) : 0 < q2pow k := by
  rw [q2pow_eq_zpow]
  positivity

lemma q2pow_mono {j k : ℤ} (h : j ≤ k) : q2pow j ≤ q2pow k := by
  rw [q2pow_eq_zpow, q2pow_eq_zpow]
  exact zpow_le_zpow_right₀ (by norm_num) h

/-- Unfolding of `qlog2` on positive input. -/
lemma qlog2_pos_eq {q : ℚ} (hq : 0 < q) :
    qlog2 q =
      (if q < q2pow ((nlog2 q.num.toNat : ℤ) - (nlog2 q.den : ℤ))
       then (nlog2 q.num.toNat : ℤ) - (nlog2 q.den : ℤ) - 1
       else (nlog2 q.num.toNat : ℤ) - (nlog2 q.den : ℤ)) := by
  unfold qlog2
  rw [if_neg (not_le.mpr hq)]

/-- The binade bracket computed by `qlog2`. -/
lemma qlog2_spec {q : ℚ} (hq : 0 < q) :
    q2pow (qlog2 q) ≤ q ∧ q < q2pow (qlog2 q + 1) := by
  have hnum : 0 < q.num := Rat.num_pos.mpr hq
  have hden : 0 < q.den := q.pos
  have hn1 : 1 ≤ q.num.toNat := by omega
  obtain ⟨ha1, ha2⟩ := nlog2_spec _ hn1
  obtain ⟨hb1, hb2⟩ := nlog2_spec _ hden
  set a := nlog2 q.num.toNat with ha
  set b := nlog2 q.den with hb
  have hD : (0 : ℚ) < (q.den : ℚ) := by exact_mod_cast hden
  have hqeq : q = ((q.num.toNat : ℕ) : ℚ) / ((q.den : ℕ) : ℚ) := by
    have h1 : ((q.num.toNat : ℕ) : ℚ) = ((q.num : ℤ) : ℚ) := by
      exact_mod_cast congrArg Int.cast (Int.toNat_of_nonneg hnum.le)
    rw [h1, Rat.num_div_den]
  have hN2 : ((q.num.toNat : ℕ) : ℚ) < (2 : ℚ) ^ ((a : ℤ) + 1) := by
    rw [show ((a : ℤ) + 1) = ((a + 1 : ℕ) : ℤ) by push_cast; ring, zpow_natCast]
    exact_mod_cast ha2
  have hN1 : (2 : ℚ) ^ ((a : ℤ)) ≤ ((q.num.toNat : ℕ) : ℚ) := by
    rw [show ((a : ℤ)) = ((a : ℕ) : ℤ) by rfl, zpow_natCast]
    exact_mod_cast ha1
  have hD2 : ((q.den : ℕ) : ℚ) < (2 : ℚ) ^ ((b : ℤ) + 1) := by
    rw [show ((b : ℤ) + 1) = ((b + 1 : ℕ) : ℤ) by push_cast; ring, zpow_natCast]
    exact_mod_cast hb2
  have hD1 : (2 : ℚ) ^ ((b : ℤ)) ≤ ((q.den : ℕ) : ℚ) := by
    rw [show ((b : ℤ)) = ((b : ℕ) : ℤ) by rfl, zpow_natCast]
    exact_mod_cast hb1
  have hA : q < (2 : ℚ) ^ ((a : ℤ) - b + 1) := by
    rw [hqeq, div_lt_iff hD]
    calc ((q.num.toNat : ℕ) : ℚ) < (2 : ℚ) ^ ((a : ℤ) + 1) := hN2
    _ = (2 : ℚ) ^ ((a : ℤ) - b + 1) * (2 : ℚ) ^ ((b : ℤ)) := by
        rw [← zpow_add₀ (by norm_num : (2 : ℚ) ≠ 0)]
        congr 1
        ring
    _ ≤ (2 : ℚ) ^ ((a : ℤ) - b + 1) * ((q.den : ℕ) : ℚ) := by
        have := q2pow_pos ((a : ℤ) - b + 1)
        rw [q2pow_eq_zpow] at this
        exact mul_le_mul_of_nonneg_left hD1 this.le
  have hB : (2 : ℚ) ^ ((a : ℤ) - b - 1) < q := by
    rw [hqeq, lt_div_iff hD]
    calc (2 : ℚ) ^ ((a : ℤ) - b - 1) * ((q.den : ℕ) : ℚ)
        < (2 : ℚ) ^ ((a : ℤ) - b - 1) * (2 : ℚ) ^ ((b : ℤ) + 1) := by
          have : (0 : ℚ) < (2 : ℚ) ^ ((a : ℤ) - b - 1) := by positivity
          exact mul_lt_mul_of_pos_left hD2 this
    _ = (2 : ℚ) ^ ((a : ℤ)) := by
        rw [← zpow_add₀ (by norm_num : (2 : ℚ) ≠ 0)]
        congr 1
        ring
    _ ≤ ((q.num.toNat : ℕ) : ℚ) := hN1
  rw [qlog2_pos_eq hq, ← ha, ← hb]
  by_cases hsplit : q < q2pow ((a : ℤ) - (b : ℤ))
  · rw [if_pos hsplit]
    constructor
    · rw [q2pow_eq_zpow]
      exact hB.le
    · rw [sub_add_cancel]
      exact hsplit
  · rw [if_neg hsplit]
    constructor
    · exact not_lt.mp hsplit
    · rw [q2pow_eq_zpow]
      exact hA

/-- Floor bracket at an arbitrary grid. -/
lemma floorGrid_bracket {q : ℚ} (hq : 0 < q) (g : ℤ) :
    ((⌊q / q2pow g⌋.toNat : ℕ) : ℚ) * q2pow g ≤ q ∧
    q < (((⌊q / q2pow g⌋.toNat : ℕ) : ℚ) + 1) * q2pow g := by
  have hg := q2pow_pos g
  have h0 : 0 ≤ ⌊q / q2pow g⌋ := Int.floor_nonneg.mpr (div_pos hq hg).le
  have hcast : ((⌊q / q2pow g⌋.toNat : ℕ) : ℚ) = ((⌊q / q2pow g⌋ : ℤ) : ℚ) := by
    exact_mod_cast congrArg Int.cast (Int.toNat_of_nonneg h0)
  constructor
  · rw [hcast]
    calc ((⌊q / q2pow g⌋ : ℤ) : ℚ) * q2pow g ≤ (q / q2pow g) * q2pow g :=
      mul_le_mul_of_nonneg_right (Int.floor_le _) hg.le
    _ = q := div_mul_cancel₀ q hg.ne'
  · rw [hcast]
    have h2 : q / q2pow g < ((⌊q / q2pow g⌋ : ℤ) : ℚ) + 1 := Int.lt_floor_add_one _
    calc q = (q / q2pow g) * q2pow g := (div_mul_cancel₀ q hg.ne').symm
    _ < (((⌊q / q2pow g⌋ : ℤ) : ℚ) + 1) * q2pow g := mul_lt_mul_of_pos_right h2 hg

/-- The selected mantissa is the floor mantissa or its successor. -/
lemma mantRound_mem (q : ℚ) (g : ℤ) :
    mantRound q g = ⌊q / q2pow g⌋.toNat ∨ mantRound q g = ⌊q / q2pow g⌋.toNat + 1 := by
  simp only [mantRound]
  split
  · right; rfl
  · split
    · left; rfl
    · split
      · left; rfl
      · right; rfl

/-- The rounded value never exceeds twice the input. -/
lemma mantRound_le_two_mul {q : ℚ} (hq : 0 < q) (g : ℤ) :
    ((mantRound q g : ℕ) : ℚ) * q2pow g ≤ 2 * q := by
  obtain ⟨hlo, hhi⟩ := floorGrid_bracket hq g
  set n : ℕ := ⌊q / q2pow g⌋.toNat with hn
  have hg := q2pow_pos g
  simp only [mantRound]
  rw [← hn]
  split
  · rename_i hc
    push_cast
    push_cast at hc
    nlinarith
  · split
    · push_cast
      nlinarith
    · rename_i hc1 hc2
      have he : 2 * q = (2 * (n : ℚ) + 1) * q2pow g := by
        push_cast at hc1 hc2
        linarith
      split
      · push_cast
        nlinarith
      · push_cast
        nlinarith

/-- When the floor mantissa is at least 1, so is the rounded value. -/
lemma mantRound_pos {q : ℚ} (hq : 0 < q) (g : ℤ) (h : q2pow g ≤ q) :
    0 < ((mantRound q g : ℕ) : ℚ) * q2pow g := by
  have hg := q2pow_pos g
  have h1 : (1 : ℚ) ≤ q / q2pow g := (one_le_div hg).mpr h
  have h2 : 1 ≤ ⌊q / q2pow g⌋ := by
    rw [Int.le_floor]
    exact_mod_cast h1
  have h3 : 1 ≤ ⌊q / q2pow g⌋.toNat := by omega
  have hm : 1 ≤ mantRound q g := by
    rcases mantRound_mem q g with hm | hm <;> omega
  have h4 : (0 : ℚ) < ((mantRound q g : ℕ) : ℚ) := by exact_mod_cast hm
  positivity

lemma q2pow_succ (k : ℤ) : q2pow (k + 1) = 2 * q2pow k := by
  rw [q2pow_eq_zpow, q2pow_eq_zpow, zpow_add_one₀ (by norm_num : (2 : ℚ) ≠ 0)]
  ring

lemma q2pow_strict_mono {j k : ℤ} (h : j < k) : q2pow j < q2pow k := by
  rw [q2pow_eq_zpow, q2pow_eq_zpow]
  exact zpow_lt_zpow_right₀ (by norm_num) h

/-- The grid never sits above the binade: rounding a value at least
    `2^(-1074)` keeps the floor mantissa at least 1. -/
lemma grid_le_self {q : ℚ} (hq : 0 < q) (h : q2pow (-1074) ≤ q) :
    q2pow (gridExp (qlog2 q)) ≤ q := by
  obtain ⟨hE1, hE2⟩ := qlog2_spec hq
  have hEb : -1074 ≤ qlog2 q := by
    by_contra hc
    push_neg at hc
    have : q2pow (qlog2 q + 1) ≤ q2pow (-1074) := q2pow_mono (by omega)
    linarith
  have hg : gridExp (qlog2 q) ≤ qlog2 q := by
    unfold gridExp
    omega
  exact le_trans (q2pow_mono hg) hE1

/-- A successful positive rounding is positive. -/
lemma roundPos_pos {q r : ℚ} (h : q2pow (-1074) ≤ q) (hr : roundPos q = some r) :
    0 < r := by
  have hq : 0 < q := lt_of_lt_of_le (q2pow_pos _) h
  simp only [roundPos] at hr
  rw [if_neg (not_le.mpr hq)] at hr
  split at hr
  · cases hr
    exact mantRound_pos hq _ (grid_le_self hq h)
  · cases hr

/-- A successful rounding of a nonnegative value is nonnegative. -/
lemma roundPos_nonneg {q r : ℚ} (hr : roundPos q = some r) : 0 ≤ r := by
  simp only [roundPos] at hr
  split at hr
  · cases hr
    exact le_refl 0
  · split at hr
    · cases hr
      exact mul_nonneg (by positivity) (q2pow_pos _).le
    · cases hr

/-- A successful rounding never exceeds twice the input. -/
lemma roundPos_le_two_mul {q r : ℚ} (hq : 0 < q) (hr : roundPos q = some r) :
    r ≤ 2 * q := by
  simp only [roundPos] at hr
  rw [if_neg (not_le.mpr hq)] at hr
  split at hr
  · cases hr
    exact mantRound_le_two_mul hq _
  · cases hr

/-- Rounding a moderate positive value succeeds. -/
lemma roundPos_some {q : ℚ} (h1 : 0 < q) (h2 : q ≤ q2pow 1022) :
    ∃ r, roundPos q = some r := by
  simp only [roundPos]
  rw [if_neg (not_le.mpr h1)]
  rw [if_pos]
  · exact ⟨_, rfl⟩
  · calc ((mantRound q (gridExp (qlog2 q)) : ℕ) : ℚ) * q2pow (gridExp (qlog2 q))
        ≤ 2 * q := mantRound_le_two_mul h1 _
    _ ≤ 2 * q2pow 1022 := by linarith
    _ = q2pow 1023 := (q2pow_succ 1022).symm
    _ < q2pow 1024 := q2pow_strict_mono (by omega)

lemma roundQ_nonneg {q r : ℚ} (hq : 0 ≤ q) (h : roundQ q = some r) : 0 ≤ r := by
  unfold roundQ at h
  rw [if_pos hq] at h
  exact roundPos_nonneg h

/-- Splitting a successful monadic bind over `Except`. -/
lemma bind_ok {α β : Type} {x : Except PyErr α} {f : α → Except PyErr β} {v : β}
    (h : (x >>= f) = .ok v) : ∃ a, x = .ok a ∧ f a = .ok v := by
  cases x with
  | ok a => exact ⟨a, rfl, h⟩
  | error e => simp [Bind.bind, Except.bind] at h

/-- The normalization fixes a degenerate pair. -/
lemma norm2_self (a : ℤ) : norm2 a a = (a, a) := by
  unfold norm2
  rw [if_neg (lt_irrefl a)]

/-- The normalized pair consists of the two inputs, ordered. -/
lemma norm2_props {pa pb : ℤ} (hpa : 0 ≤ pa) (hpb : 0 ≤ pb) :
    0 ≤ (norm2 pa pb).1 ∧ 0 ≤ (norm2 pa pb).2 ∧ (norm2 pa pb).1 ≤ (norm2 pa pb).2 := by
  unfold norm2
  split <;> constructor <;> simp_all <;> omega

lemma toFQ_nonneg {q r : ℚ} (hq : 0 ≤ q) (h : toFQ q = .ok r) : 0 ≤ r := by
  unfold toFQ at h
  split at h
  · rename_i s hh
    cases h
    exact roundQ_nonneg hq hh
  · cases h

lemma fmul_nn {a b : PyFloat} (ha : nnF a) (hb : nnF b) : nnF (fmul a b) := by
  cases a with
  | nan => cases b <;> trivial
  | inf =>
    cases b with
    | nan => trivial
    | inf => trivial
    | fin q => simp only [fmul]; split <;> trivial
  | fin x =>
    cases b with
    | nan => trivial
    | inf => simp only [fmul]; split <;> trivial
    | fin y =>
      simp only [fmul]
      split
      · rename_i r hr
        exact roundQ_nonneg (mul_nonneg ha hb) hr
      · trivial

lemma fdiv_nn {a b c : PyFloat} (ha : nnF a) (hb : nnF b)
    (h : fdiv a b = .ok c) : nnF c := by
  cases b with
  | nan =>
    cases a <;> (simp only [fdiv] at h; cases h; trivial)
  | inf =>
    cases a with
    | nan => simp only [fdiv] at h; cases h; trivial
    | inf => simp only [fdiv] at h; cases h; trivial
    | fin x =>
      simp only [fdiv] at h
      cases h
      exact le_refl (0 : ℚ)
  | fin q =>
    cases a with
    | nan =>
      simp only [fdiv] at h
      split at h
      · cases h
      · cases h; trivial
    | inf =>
      simp only [fdiv] at h
      split at h
      · cases h
      · cases h; trivial
    | fin x =>
      simp only [fdiv] at h
      split at h
      · cases h
      · split at h
        · rename_i r hr
          cases h
          exact roundQ_nonneg (div_nonneg ha hb) hr
        · cases h
          trivial

lemma pyMul_nn {a b : PyNum} {c : PyNum} (ha : nn a) (hb : nn b)
    (h : pyMul a b = .ok c) : nn c := by
  cases a with
  | int x =>
    cases b with
    | int y =>
      simp only [pyMul] at h
      cases h
      exact mul_nonneg ha hb
    | float f =>
      simp only [pyMul] at h
      obtain ⟨xf, hx, h⟩ := bind_ok h
      cases h
      have ha2 : nnF (.fin xf) := toFQ_nonneg (by exact_mod_cast ha) hx
      exact fmul_nn ha2 hb
  | float f =>
    cases b with
    | int y =>
      simp only [pyMul] at h
      obtain ⟨yf, hy, h⟩ := bind_ok h
      cases h
      have hb2 : nnF (.fin yf) := toFQ_nonneg (by exact_mod_cast hb) hy
      exact fmul_nn ha hb2
    | float g =>
      simp only [pyMul] at h
      cases h
      exact fmul_nn ha hb

lemma pyDiv_nn {a b : PyNum} {c : PyNum} (ha : nn a) (hb : nn b)
    (h : pyDiv a b = .ok c) : nn c := by
  cases a with
  | int x =>
    cases b with
    | int y =>
      simp only [pyDiv] at h
      split at h
      · cases h
      · split at h
        · rename_i r hr
          cases h
          exact roundQ_nonneg (div_nonneg (by exact_mod_cast ha) (by exact_mod_cast hb)) hr
        · cases h
    | float f =>
      simp only [pyDiv] at h
      obtain ⟨xf, hx, h⟩ := bind_ok h
      obtain ⟨r, hr, h⟩ := bind_ok h
      cases h
      have ha2 : nnF (.fin xf) := toFQ_nonneg (by exact_mod_cast ha) hx
      exact fdiv_nn ha2 hb hr
  | float f =>
    cases b with
    | int y =>
      simp only [pyDiv] at h
      obtain ⟨yf, hy, h⟩ := bind_ok h
      obtain ⟨r, hr, h⟩ := bind_ok h
      cases h
      have hb2 : nnF (.fin yf) := toFQ_nonneg (by exact_mod_cast hb) hy
      exact fdiv_nn ha hb2 hr
    | float g =>
      simp only [pyDiv] at h
      obtain ⟨r, hr, h⟩ := bind_ok h
      cases h
      exact fdiv_nn ha hb hr

lemma ratTrunc_nonneg {q : ℚ} (hq : 0 ≤ q) : 0 ≤ ratTrunc q := by
  unfold ratTrunc
  rw [if_pos hq]
  exact Int.floor_nonneg.mpr hq

lemma pyInt_nn {a : PyNum} {v : ℤ} (ha : nn a) (h : pyInt a = .ok v) : 0 ≤ v := by
  cases a with
  | int z =>
    simp only [pyInt] at h
    cases h
    exact ha
  | float f =>
    cases f with
    | fin q =>
      simp only [pyInt] at h
      cases h
      exact ratTrunc_nonneg ha
    | inf => simp only [pyInt] at h; cases h
    | nan => simp only [pyInt] at h; cases h

/-- A successful calc_amount0 on nonnegative integer inputs is nonnegative. -/
lemma calc_amount0_nonneg {L pa pb v : ℤ}
    (hL : 0 ≤ L) (hpa : 0 ≤ pa) (hpb : 0 ≤ pb)
    (h : calc_amount0 (.int L) pa pb = .ok v) : 0 ≤ v := by
  obtain ⟨hl, hu, hle⟩ := norm2_props hpa hpb
  unfold calc_amount0 at h
  obtain ⟨t1, h1, h⟩ := bind_ok h
  obtain ⟨t2, h2, h⟩ := bind_ok h
  obtain ⟨t3, h3, h⟩ := bind_ok h
  obtain ⟨t4, h4, h⟩ := bind_ok h
  have n1 : nn t1 := pyMul_nn (by exact hL) (by unfold nn; positivity) h1
  have n2 : nn t2 := pyMul_nn n1 (by unfold nn; omega) h2
  have n3 : nn t3 := pyDiv_nn n2 (by exact hu) h3
  have n4 : nn t4 := pyDiv_nn n3 (by exact hl) h4
  exact pyInt_nn n4 h

/-- A successful calc_amount1 on nonnegative integer inputs is nonnegative. -/
lemma calc_amount1_nonneg {L pa pb v : ℤ}
    (hL : 0 ≤ L) (hpa : 0 ≤ pa) (hpb : 0 ≤ pb)
    (h : calc_amount1 (.int L) pa pb = .ok v) : 0 ≤ v := by
  obtain ⟨hl, hu, hle⟩ := norm2_props hpa hpb
  unfold calc_amount1 at h
  obtain ⟨t1, h1, h⟩ := bind_ok h
  obtain ⟨t2, h2, h⟩ := bind_ok h
  have n1 : nn t1 := pyMul_nn (by exact hL) (by unfold nn; omega) h1
  have n2 : nn t2 := pyDiv_nn n1 (by unfold nn; positivity) h2
  exact pyInt_nn n2 h

/-- C5 amended: the reported output amount of a swap step is never negative,
    but it can be zero: for every positive liquidity, current square-root
    price and input amount, whenever the re-derived output computes to a
    value at all, that value is nonnegative (strict positivity fails, see the
    counterexample with a small input against large liquidity). -/
theorem swap_output_nonneg (L p a : ℕ) (v0 v1 : ℤ)
    (hL : 0 < L) (hp : 0 < p) (ha : 0 < a) :
    (amount_out_sell1 L p a = .ok v1 → 0 ≤ v1) ∧
    (amount_out_sell0 L p a = .ok v0 → 0 ≤ v0) := by
  constructor
  · intro h
    exact calc_amount0_nonneg (by positivity) (by positivity) (by positivity) h
  · intro h
    exact calc_amount1_nonneg (by positivity) (by positivity) (by positivity) h

/-- Witness for the amended C5 at L = 2^96, p = 2^96, a = 1: both swap-step
    outputs actually compute to `.ok 1` (stated and proved here by
    evaluation, so the instantiated implications are not vacuous), and the
    theorem instantiates to the matching implications. -/
theorem swap_output_nonneg_witness :
    0 < 2 ^ 96 ∧ 0 < 2 ^ 96 ∧ 0 < 1 ∧
    amount_out_sell1 (2 ^ 96) (2 ^ 96) 1 = .ok 1 ∧
    amount_out_sell0 (2 ^ 96) (2 ^ 96) 1 = .ok 1 ∧
    ((amount_out_sell1 (2 ^ 96) (2 ^ 96) 1 = .ok 1 → (0 : ℤ) ≤ 1) ∧
     (amount_out_sell0 (2 ^ 96) (2 ^ 96) 1 = .ok 1 → (0 : ℤ) ≤ 1)) :=
  ⟨by decide, by decide, by decide, by decide, by decide,
   swap_output_nonneg (2 ^ 96) (2 ^ 96) 1 1 1 (by decide) (by decide) (by decide)⟩

lemma roundQ_zero : roundQ 0 = some 0 := by decide

/-- toFQ computes whatever the rounding computes. -/
lemma toFQ_of_roundQ {q r : ℚ} (h : roundQ q = some r) : toFQ q = .ok r := by
  unfold toFQ
  rw [h]

@[simp] lemma ok_bind {α β : Type} (a : α) (f : α → Except PyErr β) :
    ((.ok a : Except PyErr α) >>= f) = f a := rfl

@[simp] lemma error_bind {α β : Type} (e : PyErr) (f : α → Except PyErr β) :
    ((.error e : Except PyErr α) >>= f) = .error e := rfl

lemma ratTrunc_zero : ratTrunc 0 = 0 := by decide

lemma q2pow_zero : q2pow 0 = 1 := by decide

lemma q2pow_1022 : q2pow 1022 = ((2 ^ 1022 : ℕ) : ℚ) := by
  unfold q2pow
  rw [if_pos (by omega : (0 : ℤ) ≤ 1022), show ((1022 : ℤ)).toNat = 1022 from rfl]

/-- C2 counterexample: at the non-positive price 0, price_to_sqrtp does not
    fail: it silently returns the degenerate square-root price 0; and on the
    zero-width range (7, 7), amount0FromLiquidity does not fail either: it
    silently returns 0. -/
theorem domain_error_counterexample :
    price_to_sqrtp 0 = .ok 0 ∧ calc_amount0 (.int 5) 7 7 = .ok 0 := by
  constructor
  · decide
  · decide

/-- C2 amended: price_to_tick raises ValueError on every non-positive price,
    and price_to_sqrtp raises (ValueError, or OverflowError below the double
    range) on every price at most -2^(-1074), i.e. on every negative price
    of double magnitude — but price_to_sqrtp silently returns 0 at price 0.
    On a zero-width range, liquidity0 and liquidity1 fail fast (liquidity1
    always with ZeroDivisionError; liquidity0 with ZeroDivisionError, or
    OverflowError if its first division already overflows), while
    calc_amount0 (for a positive in-range price) and calc_amount1 silently
    return the degenerate amount 0. -/
theorem domain_error_behaviour :
    (∀ p : ℚ, p ≤ 0 → price_to_tick p = .error .ValueError) ∧
    (∀ p : ℚ, p ≤ -q2pow (-1074) →
      price_to_sqrtp p = .error .ValueError ∨ price_to_sqrtp p = .error .OverflowError) ∧
    (∀ x a : ℤ, ∃ e, liquidity0 (.int x) a a = .error e) ∧
    (∀ x a : ℤ, liquidity1 (.int x) a a = .error .ZeroDivisionError) ∧
    (∀ x a : ℤ, 0 < a → a ≤ 2 ^ 1022 → calc_amount0 (.int x) a a = .ok 0) ∧
    (∀ x a : ℤ, calc_amount1 (.int x) a a = .ok 0) := by
  have hq96 : ((q96 : ℕ) : ℤ) ≠ 0 := by unfold q96; positivity
  refine ⟨?_, ?_, ?_, ?_, ?_, ?_⟩
  · intro p hp
    unfold price_to_tick
    rw [if_pos hp]
  · intro p hp
    have h1074 := q2pow_pos (-1074)
    have hneg : ¬ (0 ≤ p) := by push_neg; linarith
    have hq : q2pow (-1074) ≤ -p := by linarith
    have htf : (toFQ p = .error .OverflowError) ∨ (∃ r, toFQ p = .ok r ∧ r < 0) := by
      unfold toFQ roundQ
      rw [if_neg hneg]
      cases hr : roundPos (-p) with
      | some r =>
        right
        have hrpos := roundPos_pos hq hr
        exact ⟨-r, by simp, by linarith⟩
      | none => left; simp
    rcases htf with h | ⟨r, hok, hlt⟩
    · right
      unfold price_to_sqrtp
      rw [h]
      rfl
    · left
      unfold price_to_sqrtp
      rw [hok]
      show (if r < 0 then (.error .ValueError : Except PyErr ℤ) else _) = _
      rw [if_pos hlt]
  · intro x a
    unfold liquidity0
    simp only [norm2_self, sub_self, pyMul, ok_bind]
    simp only [pyDiv]
    rw [if_neg hq96]
    split
    · rename_i r hr
      simp only [ok_bind, Int.cast_zero]
      rw [toFQ_of_roundQ roundQ_zero]
      refine ⟨.ZeroDivisionError, ?_⟩
      simp [fdiv]
    · exact ⟨_, rfl⟩
  · intro x a
    unfold liquidity1
    simp only [norm2_self, sub_self, pyMul, ok_bind]
    simp only [pyDiv]
    simp
  · intro x a ha hb
    have ha0 : (0 : ℚ) < (a : ℚ) := by exact_mod_cast ha
    have haq : (a : ℚ) ≤ q2pow 1022 := by
      rw [q2pow_1022]
      exact_mod_cast hb
    obtain ⟨ra, hra⟩ := roundPos_some ha0 haq
    have hlow : q2pow (-1074) ≤ (a : ℚ) := by
      calc q2pow (-1074) ≤ q2pow 0 := q2pow_mono (by omega)
      _ = 1 := q2pow_zero
      _ ≤ (a : ℚ) := by exact_mod_cast ha
    have hra_pos : 0 < ra := roundPos_pos hlow hra
    have hrQ : roundQ (a : ℚ) = some ra := by
      unfold roundQ
      rw [if_pos ha0.le]
      exact hra
    unfold calc_amount0
    simp only [norm2_self, sub_self, pyMul, ok_bind, mul_zero]
    simp only [pyDiv]
    rw [if_neg (by omega : ¬ a = 0)]
    rw [show (((0 : ℤ) : ℚ) / (a : ℚ)) = 0 by norm_num]
    rw [roundQ_zero]
    simp only [ok_bind]
    rw [toFQ_of_roundQ hrQ]
    simp only [ok_bind, fdiv]
    rw [if_neg hra_pos.ne']
    rw [show ((0 : ℚ) / ra) = 0 by norm_num]
    rw [roundQ_zero]
    simp only [ok_bind, pyInt, ratTrunc_zero]
  · intro x a
    unfold calc_amount1
    simp only [norm2_self, sub_self, pyMul, ok_bind, mul_zero]
    simp only [pyDiv]
    rw [if_neg hq96]
    simp only [Int.cast_zero, zero_div, roundQ_zero, ok_bind, pyInt, ratTrunc_zero]

/-- Witness for the amended C2 at p = -1, x = 5, a = 7. -/
theorem domain_error_behaviour_witness :
    price_to_tick (-1) = .error .ValueError ∧
    (price_to_sqrtp (-1) = .error .ValueError ∨ price_to_sqrtp (-1) = .error .OverflowError) ∧
    (∃ e, liquidity0 (.int 5) 7 7 = .error e) ∧
    liquidity1 (.int 5) 7 7 = .error .ZeroDivisionError ∧
    calc_amount0 (.int 5) 7 7 = .ok 0 ∧
    calc_amount1 (.int 5) 7 7 = .ok 0 :=
  ⟨domain_error_behaviour.1 (-1) (by norm_num),
   domain_error_behaviour.2.1 (-1) (by
     have := q2pow_pos (-1074)
     have h1 : q2pow (-1074) ≤ 1 := by
       calc q2pow (-1074) ≤ q2pow 0 := q2pow_mono (by omega)
       _ = 1 := q2pow_zero
     linarith),
   domain_error_behaviour.2.2.1 5 7,
   domain_error_behaviour.2.2.2.1 5 7,
   domain_error_behaviour.2.2.2.2.1 5 7 (by omega) (by norm_num),
   domain_error_behaviour.2.2.2.2.2 5 7⟩

/-- On distinct positive inputs the normalized pair is positive and strictly
    ordered. -/
lemma norm2_pos_lt {a b : ℤ} (ha : 0 < a) (hb : 0 < b) (hab : a ≠ b) :
    0 < (norm2 a b).1 ∧ (norm2 a b).1 < (norm2 a b).2 := by
  unfold norm2
  split <;> constructor <;> simp_all <;> omega

/-- C3 amended: under the spec's exact rational arithmetic the round trip
    amount0FromLiquidity(liquidityFromAmount0(amt, a, b), a, b) returns amt
    exactly — in particular it never exceeds amt.  The implementation's
    floating-point true divisions, however, can overshoot amt by rounding
    (see the counterexample). -/
theorem amount0_round_trip_exact (amt : ℕ) (a b : ℤ)
    (ha : 0 < a) (hb : 0 < b) (hab : a ≠ b) :
    calc_amount0_spec (liquidity0_spec (amt : ℚ) a b) a b = (amt : ℤ) := by
  obtain ⟨hl, hlu⟩ := norm2_pos_lt ha hb hab
  have hl0 : ((norm2 a b).1 : ℚ) ≠ 0 := by
    have : (0 : ℚ) < ((norm2 a b).1 : ℚ) := by exact_mod_cast hl
    linarith
  have hu0 : ((norm2 a b).2 : ℚ) ≠ 0 := by
    have : (0 : ℚ) < ((norm2 a b).2 : ℚ) := by
      have : (0 : ℤ) < (norm2 a b).2 := lt_trans hl hlu
      exact_mod_cast this
    linarith
  have hsub : ((norm2 a b).2 : ℚ) - ((norm2 a b).1 : ℚ) ≠ 0 := by
    have : ((norm2 a b).1 : ℚ) < ((norm2 a b).2 : ℚ) := by exact_mod_cast hlu
    linarith
  unfold calc_amount0_spec liquidity0_spec
  rw [show (amt : ℚ) * (((norm2 a b).1 : ℚ) * ((norm2 a b).2 : ℚ)) / 2 ^ 96 /
      (((norm2 a b).2 : ℚ) - ((norm2 a b).1 : ℚ)) * 2 ^ 96 *
      (((norm2 a b).2 : ℚ) - ((norm2 a b).1 : ℚ)) / ((norm2 a b).2 : ℚ) /
      ((norm2 a b).1 : ℚ) = (amt : ℚ) from by
    field_simp
    ring]
  exact Int.floor_natCast amt

/-- Witness for the amended C3 at amt = 5, a = 3, b = 7. -/
theorem amount0_round_trip_exact_witness :
    (0 : ℤ) < 3 ∧ (0 : ℤ) < 7 ∧ (3 : ℤ) ≠ 7 ∧
    calc_amount0_spec (liquidity0_spec ((5 : ℕ) : ℚ) 3 7) 3 7 = ((5 : ℕ) : ℤ) :=
  ⟨by decide, by decide, by decide,
   amount0_round_trip_exact 5 3 7 (by decide) (by decide) (by decide)⟩

/-- C10 amended: under the spec's exact floor arithmetic the settled input
    amount re-derived from the sell-asset1 price move never exceeds the
    requested input amount.  The implementation's float division by 2^96,
    however, can round the exact value up past the requested amount (see the
    counterexample). -/
theorem settled_amount1_exact (L p a : ℕ) (hL : 0 < L) (hp : 0 < p) (ha : 0 < a) :
    calc_amount1_spec (L : ℚ) ((price_next_sell1 L p a : ℕ) : ℤ) ((p : ℕ) : ℤ) ≤ (a : ℤ) := by
  have hpn : (price_next_sell1 L p a : ℕ) = p + (a * q96) / L := rfl
  have hnorm : ∀ d : ℕ, ((norm2 ((p + d : ℕ) : ℤ) ((p : ℕ) : ℤ)).2 : ℚ) -
      ((norm2 ((p + d : ℕ) : ℤ) ((p : ℕ) : ℤ)).1 : ℚ) = (d : ℚ) := by
    intro d
    have h : ((norm2 ((p + d : ℕ) : ℤ) ((p : ℕ) : ℤ)).2 -
        (norm2 ((p + d : ℕ) : ℤ) ((p : ℕ) : ℤ)).1) = (d : ℤ) := by
      unfold norm2
      split <;> push_cast <;> omega
    have h2 := congrArg (fun z : ℤ => (z : ℚ)) h
    push_cast at h2
    push_cast
    convert h2 using 2
  have hq96Q : ((q96 : ℕ) : ℚ) = 2 ^ 96 := by norm_num [q96]
  have hdl : (((a * q96) / L : ℕ) : ℚ) * (L : ℚ) ≤ (a : ℚ) * ((q96 : ℕ) : ℚ) := by
    exact_mod_cast Nat.div_mul_le_self (a * q96) L
  have hd0 : (0 : ℚ) ≤ (((a * q96) / L : ℕ) : ℚ) := by positivity
  unfold calc_amount1_spec
  rw [hpn, hnorm ((a * q96) / L)]
  have hval : (L : ℚ) * (((a * q96) / L : ℕ) : ℚ) / 2 ^ 96 ≤ (a : ℚ) := by
    rw [div_le_iff (by positivity : (0 : ℚ) < 2 ^ 96)]
    rw [← hq96Q]
    nlinarith
  calc ⌊(L : ℚ) * (((a * q96) / L : ℕ) : ℚ) / 2 ^ 96⌋ ≤ ⌊(a : ℚ)⌋ := Int.floor_le_floor hval
  _ = (a : ℤ) := Int.floor_natCast a

/-- Witness for the amended C10 at L = 2, p = 3, a = 5. -/
theorem settled_amount1_exact_witness :
    0 < 2 ∧ 0 < 3 ∧ 0 < 5 ∧
    calc_amount1_spec ((2 : ℕ) : ℚ) ((price_next_sell1 2 3 5 : ℕ) : ℤ) ((3 : ℕ) : ℤ) ≤ ((5 : ℕ) : ℤ) :=
  ⟨by decide, by decide, by decide,
   settled_amount1_exact 2 3 5 (by decide) (by decide) (by decide)⟩

lemma q2pow_add (j k : ℤ) : q2pow (j + k) = q2pow j * q2pow k := by
  rw [q2pow_eq_zpow, q2pow_eq_zpow, q2pow_eq_zpow]
  exact zpow_add₀ (by norm_num) j k

lemma q2pow_le_reflect {j k : ℤ} (h : q2pow j < q2pow k) : j < k := by
  by_contra hc
  push_neg at hc
  exact absurd (q2pow_mono hc) (not_le.mpr h)

/-- The binade exponent is monotone on positives. -/
lemma qlog2_mono {q1 q2 : ℚ} (h0 : 0 < q1) (h : q1 ≤ q2) : qlog2 q1 ≤ qlog2 q2 := by
  have h02 : 0 < q2 := lt_of_lt_of_le h0 h
  obtain ⟨ha1, ha2⟩ := qlog2_spec h0
  obtain ⟨hb1, hb2⟩ := qlog2_spec h02
  have : q2pow (qlog2 q1) < q2pow (qlog2 q2 + 1) := lt_of_le_of_lt (le_trans ha1 h) hb2
  have := q2pow_le_reflect this
  omega

lemma gridExp_mono {j k : ℤ} (h : j ≤ k) : gridExp j ≤ gridExp k := by
  unfold gridExp
  omega

/-- The value delivered by a successful positive rounding. -/
lemma roundPos_val {q r : ℚ} (hq : 0 < q) (h : roundPos q = some r) :
    r = (mantRound q (gridExp (qlog2 q)) : ℚ) * q2pow (gridExp (qlog2 q)) := by
  simp only [roundPos] at h
  rw [if_neg (not_le.mpr hq)] at h
  split at h
  · cases h
    rfl
  · cases h

/-- Midpoint-comparison monotonicity of the selected mantissa at a fixed
    grid and a fixed floor mantissa. -/
lemma mantRound_mono_same {q1 q2 : ℚ} (g : ℤ) (h12 : q1 ≤ q2)
    (hn : ⌊q1 / q2pow g⌋.toNat = ⌊q2 / q2pow g⌋.toNat) :
    mantRound q1 g ≤ mantRound q2 g := by
  simp only [mantRound]
  rw [← hn]
  set n : ℕ := ⌊q1 / q2pow g⌋.toNat with hdefn
  by_cases c1 : ((2 * n + 1 : ℕ) : ℚ) * q2pow g < 2 * q1
  · rw [if_pos c1, if_pos (lt_of_lt_of_le c1 (by linarith))]
  · rw [if_neg c1]
    by_cases c2 : 2 * q1 < ((2 * n + 1 : ℕ) : ℚ) * q2pow g
    · rw [if_pos c2]
      split
      · omega
      · split
        · omega
        · split <;> omega
    · rw [if_neg c2]
      have he : 2 * q1 = ((2 * n + 1 : ℕ) : ℚ) * q2pow g := by linarith
      by_cases c3 : ((2 * n + 1 : ℕ) : ℚ) * q2pow g < 2 * q2
      · rw [if_pos c3]
        split <;> omega
      · have he2 : ¬ (2 * q2 < ((2 * n + 1 : ℕ) : ℚ) * q2pow g) := by
          push_neg
          linarith
        rw [if_neg c3, if_neg he2]

/-- Monotonicity of round-to-nearest-even on positive inputs. -/
lemma roundPos_mono {q1 q2 r1 r2 : ℚ} (h0 : 0 < q1) (h12 : q1 ≤ q2)
    (e1 : roundPos q1 = some r1) (e2 : roundPos q2 = some r2) : r1 ≤ r2 := by
  have h02 : 0 < q2 := lt_of_lt_of_le h0 h12
  have hv1 := roundPos_val h0 e1
  have hv2 := roundPos_val h02 e2
  set E1 : ℤ := qlog2 q1 with hE1
  set E2 : ℤ := qlog2 q2 with hE2
  set g1 : ℤ := gridExp E1 with hg1
  set g2 : ℤ := gridExp E2 with hg2
  have hEm : E1 ≤ E2 := qlog2_mono h0 h12
  have hgm : g1 ≤ g2 := gridExp_mono hEm
  obtain ⟨hbr1l, hbr1r⟩ := floorGrid_bracket h0 g1
  obtain ⟨hbr2l, hbr2r⟩ := floorGrid_bracket h02 g2
  obtain ⟨hq1l, hq1r⟩ := qlog2_spec h0
  obtain ⟨hq2l, hq2r⟩ := qlog2_spec h02
  rw [← hE1] at hq1l hq1r
  rw [← hE2] at hq2l hq2r
  set n1 : ℕ := ⌊q1 / q2pow g1⌋.toNat with hn1
  set n2 : ℕ := ⌊q2 / q2pow g2⌋.toNat with hn2
  have hm1 : mantRound q1 g1 ≤ n1 + 1 := by
    rcases mantRound_mem q1 g1 with h | h <;> omega
  have hm2 : n2 ≤ mantRound q2 g2 := by
    rcases mantRound_mem q2 g2 with h | h <;> omega
  have hgpos1 := q2pow_pos g1
  have hgpos2 := q2pow_pos g2
  have hg1max : g1 = max (E1 - 52) (-1074) := hg1
  have hg2max : g2 = max (E2 - 52) (-1074) := hg2
  rcases lt_or_eq_of_le hgm with hglt | hgeq
  · -- different grids
    have hg2E : g2 = E2 - 52 := by omega
    have hr2low : q2pow E2 ≤ r2 := by
      have hgoal : q2pow (E2 - g2) ≤ q2 / q2pow g2 := by
        rw [le_div_iff hgpos2, ← q2pow_add, show E2 - g2 + g2 = E2 by ring]
        exact hq2l
      have hfl : ((2 ^ (E2 - g2).toNat : ℕ) : ℤ) ≤ ⌊q2 / q2pow g2⌋ := by
        rw [Int.le_floor]
        have he : (((2 ^ (E2 - g2).toNat : ℕ) : ℤ) : ℚ) = q2pow (E2 - g2) := by
          unfold q2pow
          rw [if_pos (by omega : (0 : ℤ) ≤ E2 - g2)]
          push_cast
          ring
        rw [he]
        exact hgoal
      have h0f : 0 ≤ ⌊q2 / q2pow g2⌋ := Int.floor_nonneg.mpr (div_pos h02 hgpos2).le
      have hn2ge : 2 ^ (E2 - g2).toNat ≤ n2 := by omega
      have hstep : ((2 ^ (E2 - g2).toNat : ℕ) : ℚ) * q2pow g2 ≤ (n2 : ℚ) * q2pow g2 := by
        apply mul_le_mul_of_nonneg_right _ hgpos2.le
        exact_mod_cast hn2ge
      have he2 : ((2 ^ (E2 - g2).toNat : ℕ) : ℚ) = q2pow (E2 - g2) := by
        unfold q2pow
        rw [if_pos (by omega : (0 : ℤ) ≤ E2 - g2)]
      rw [he2, ← q2pow_add, show E2 - g2 + g2 = E2 by ring] at hstep
      have hmono : (n2 : ℚ) * q2pow g2 ≤ (mantRound q2 g2 : ℚ) * q2pow g2 := by
        apply mul_le_mul_of_nonneg_right _ hgpos2.le
        exact_mod_cast hm2
      rw [hv2]
      linarith
    rcases le_or_lt g1 (E1 + 1) with hcase | hcase
    · have hfl : n1 < 2 ^ (E1 + 1 - g1).toNat := by
        by_contra hc
        push_neg at hc
        have h1 : ((2 ^ (E1 + 1 - g1).toNat : ℕ) : ℚ) ≤ (n1 : ℚ) := by exact_mod_cast hc
        have he : ((2 ^ (E1 + 1 - g1).toNat : ℕ) : ℚ) = q2pow (E1 + 1 - g1) := by
          unfold q2pow
          rw [if_pos (by omega : (0 : ℤ) ≤ E1 + 1 - g1)]
        have h2 : q2pow (E1 + 1 - g1) * q2pow g1 ≤ (n1 : ℚ) * q2pow g1 := by
          apply mul_le_mul_of_nonneg_right _ hgpos1.le
          rw [← he]
          exact h1
        rw [← q2pow_add, show E1 + 1 - g1 + g1 = E1 + 1 by ring] at h2
        linarith
      have hm1b : (mantRound q1 g1 : ℚ) ≤ ((2 ^ (E1 + 1 - g1).toNat : ℕ) : ℚ) := by
        have h3 : mantRound q1 g1 ≤ 2 ^ (E1 + 1 - g1).toNat := by omega
        exact_mod_cast h3
      have hr1up : r1 ≤ q2pow (E1 + 1) := by
        rw [hv1]
        calc (mantRound q1 g1 : ℚ) * q2pow g1
            ≤ ((2 ^ (E1 + 1 - g1).toNat : ℕ) : ℚ) * q2pow g1 :=
          mul_le_mul_of_nonneg_right hm1b hgpos1.le
        _ = q2pow (E1 + 1 - g1) * q2pow g1 := by
            congr 1
            unfold q2pow
            rw [if_pos (by omega : (0 : ℤ) ≤ E1 + 1 - g1)]
        _ = q2pow (E1 + 1) := by
            rw [← q2pow_add]
            congr 1
            ring
      have hE12 : E1 + 1 ≤ E2 := by omega
      calc r1 ≤ q2pow (E1 + 1) := hr1up
      _ ≤ q2pow E2 := q2pow_mono hE12
      _ ≤ r2 := hr2low
    · have hn10 : n1 = 0 := by
        have hq1small : q1 / q2pow g1 < 1 := by
          rw [div_lt_one hgpos1]
          calc q1 < q2pow (E1 + 1) := hq1r
          _ ≤ q2pow g1 := q2pow_mono (by omega)
        have h4 : ⌊q1 / q2pow g1⌋ < 1 := by
          rw [Int.floor_lt]
          exact_mod_cast hq1small
        omega
      have hr1up : r1 ≤ q2pow g1 := by
        rw [hv1]
        have h5 : (mantRound q1 g1 : ℚ) ≤ 1 := by
          have h6 : mantRound q1 g1 ≤ 1 := by omega
          exact_mod_cast h6
        calc (mantRound q1 g1 : ℚ) * q2pow g1 ≤ 1 * q2pow g1 :=
          mul_le_mul_of_nonneg_right h5 hgpos1.le
        _ = q2pow g1 := one_mul _
      calc r1 ≤ q2pow g1 := hr1up
      _ ≤ q2pow E2 := q2pow_mono (by omega)
      _ ≤ r2 := hr2low
  · -- same grid
    rw [← hgeq] at hv2 hbr2l hbr2r hn2
    have hf1nn : 0 ≤ ⌊q1 / q2pow g1⌋ := Int.floor_nonneg.mpr (div_pos h0 hgpos1).le
    have hf2nn : 0 ≤ ⌊q2 / q2pow g1⌋ := Int.floor_nonneg.mpr (div_pos h02 hgpos1).le
    have hfm : ⌊q1 / q2pow g1⌋ ≤ ⌊q2 / q2pow g1⌋ :=
      Int.floor_le_floor ((div_le_div_right hgpos1).mpr h12)
    have hnm : n1 ≤ n2 := by omega
    rcases Nat.lt_or_ge n1 n2 with hlt | hge
    · rw [hv1, hv2]
      apply mul_le_mul_of_nonneg_right _ hgpos1.le
      have h7 : mantRound q1 g1 ≤ mantRound q2 g1 := by
        rcases mantRound_mem q2 g1 with h | h <;> omega
      exact_mod_cast h7
    · rw [hv1, hv2]
      apply mul_le_mul_of_nonneg_right _ hgpos1.le
      have h8 := mantRound_mono_same g1 h12 (by omega)
      exact_mod_cast h8

lemma nsqrt_sq (k : ℕ) : nsqrt (k * k) = k := by
  obtain ⟨h1, h2⟩ := nsqrt_spec (k * k)
  have ha : nsqrt (k * k) ≤ k := by nlinarith
  have hb : k ≤ nsqrt (k * k) := by nlinarith
  omega

/-- Bracket for the rational square-root floor. -/
lemma ratSqrtFloor_bracket {r : ℚ} (hr : 0 ≤ r) :
    ((ratSqrtFloor r : ℕ) : ℚ) * ((ratSqrtFloor r : ℕ) : ℚ) ≤ r ∧
    r < (((ratSqrtFloor r : ℕ) : ℚ) + 1) * (((ratSqrtFloor r : ℕ) : ℚ) + 1) := by
  obtain ⟨h1, h2⟩ := nsqrt_spec ⌊r⌋.toNat
  have hf0 : 0 ≤ ⌊r⌋ := Int.floor_nonneg.mpr hr
  have hcast : ((⌊r⌋.toNat : ℕ) : ℚ) = ((⌊r⌋ : ℤ) : ℚ) := by
    exact_mod_cast congrArg Int.cast (Int.toNat_of_nonneg hf0)
  unfold ratSqrtFloor
  constructor
  · have hc : ((nsqrt ⌊r⌋.toNat * nsqrt ⌊r⌋.toNat : ℕ) : ℚ) ≤ ((⌊r⌋.toNat : ℕ) : ℚ) := by
      exact_mod_cast h1
    push_cast at hc
    calc ((nsqrt ⌊r⌋.toNat : ℕ) : ℚ) * ((nsqrt ⌊r⌋.toNat : ℕ) : ℚ) ≤ ((⌊r⌋.toNat : ℕ) : ℚ) := hc
    _ = ((⌊r⌋ : ℤ) : ℚ) := hcast
    _ ≤ r := Int.floor_le r
  · have hc : ((⌊r⌋.toNat : ℕ) : ℚ) + 1 ≤
        (((nsqrt ⌊r⌋.toNat + 1) * (nsqrt ⌊r⌋.toNat + 1) : ℕ) : ℚ) := by
      exact_mod_cast h2
    push_cast at hc
    calc r < ((⌊r⌋ : ℤ) : ℚ) + 1 := Int.lt_floor_add_one r
    _ = ((⌊r⌋.toNat : ℕ) : ℚ) + 1 := by rw [hcast]
    _ ≤ (((nsqrt ⌊r⌋.toNat : ℕ) : ℚ) + 1) * (((nsqrt ⌊r⌋.toNat : ℕ) : ℚ) + 1) := by
        push_cast at hc ⊢
        linarith

lemma ratSqrtFloor_mono {r1 r2 : ℚ} (h : r1 ≤ r2) :
    ratSqrtFloor r1 ≤ ratSqrtFloor r2 := by
  unfold ratSqrtFloor
  apply nsqrt_le_nsqrt
  have := Int.floor_le_floor h
  omega

lemma sqrtMant_mem (r : ℚ) :
    sqrtMant r = ratSqrtFloor r ∨ sqrtMant r = ratSqrtFloor r + 1 := by
  unfold sqrtMant
  split
  · right; rfl
  · split
    · left; rfl
    · split
      · left; rfl
      · right; rfl

/-- Midpoint-comparison monotonicity of the square-root mantissa at a fixed
    floor value. -/
lemma sqrtMant_mono_same {r1 r2 : ℚ} (h12 : r1 ≤ r2)
    (hn : ratSqrtFloor r1 = ratSqrtFloor r2) : sqrtMant r1 ≤ sqrtMant r2 := by
  unfold sqrtMant
  rw [← hn]
  set n : ℕ := ratSqrtFloor r1 with hdefn
  by_cases c1 : ((2 * n + 1 : ℕ) : ℚ) ^ 2 < 4 * r1
  · rw [if_pos c1, if_pos (lt_of_lt_of_le c1 (by linarith))]
  · rw [if_neg c1]
    by_cases c2 : 4 * r1 < ((2 * n + 1 : ℕ) : ℚ) ^ 2
    · rw [if_pos c2]
      split
      · omega
      · split
        · omega
        · split <;> omega
    · rw [if_neg c2]
      have he : 4 * r1 = ((2 * n + 1 : ℕ) : ℚ) ^ 2 := by linarith
      by_cases c3 : ((2 * n + 1 : ℕ) : ℚ) ^ 2 < 4 * r2
      · rw [if_pos c3]
        split <;> omega
      · have he2 : ¬ (4 * r2 < ((2 * n + 1 : ℕ) : ℚ) ^ 2) := by
          push_neg
          linarith
        rw [if_neg c3, if_neg he2]

lemma sqrtPos_nonneg (q : ℚ) : 0 ≤ sqrtPos q := by
  unfold sqrtPos
  split
  · exact le_refl 0
  · exact mul_nonneg (by positivity) (q2pow_pos _).le

/-- Monotonicity of the rounded square root. -/
lemma sqrtPos_mono {q1 q2 : ℚ} (h0 : 0 < q1) (h12 : q1 ≤ q2) :
    sqrtPos q1 ≤ sqrtPos q2 := by
  have h02 : 0 < q2 := lt_of_lt_of_le h0 h12
  unfold sqrtPos
  rw [if_neg (not_le.mpr h0), if_neg (not_le.mpr h02)]
  set E1 : ℤ := qlog2 q1 with hE1
  set E2 : ℤ := qlog2 q2 with hE2
  obtain ⟨hq1l, hq1r⟩ := qlog2_spec h0
  obtain ⟨hq2l, hq2r⟩ := qlog2_spec h02
  rw [← hE1] at hq1l hq1r
  rw [← hE2] at hq2l hq2r
  have hEm : E1 ≤ E2 := qlog2_mono h0 h12
  set F1 : ℤ := E1 / 2 with hF1
  set F2 : ℤ := E2 / 2 with hF2
  have hFm : F1 ≤ F2 := by omega
  have hbin1 : q2pow (2 * F1) ≤ q1 ∧ q1 < q2pow (2 * F1 + 2) := by
    constructor
    · exact le_trans (q2pow_mono (by omega)) hq1l
    · exact lt_of_lt_of_le hq1r (q2pow_mono (by omega))
  have hbin2 : q2pow (2 * F2) ≤ q2 ∧ q2 < q2pow (2 * F2 + 2) := by
    constructor
    · exact le_trans (q2pow_mono (by omega)) hq2l
    · exact lt_of_lt_of_le hq2r (q2pow_mono (by omega))
  set r1 : ℚ := q1 / q2pow (2 * (F1 - 52)) with hr1
  set r2 : ℚ := q2 / q2pow (2 * (F2 - 52)) with hr2
  have hgpos1 := q2pow_pos (2 * (F1 - 52))
  have hgpos2 := q2pow_pos (2 * (F2 - 52))
  have hrpos1 : 0 < r1 := div_pos h0 hgpos1
  have hrpos2 : 0 < r2 := div_pos h02 hgpos2
  have hrlow1 : q2pow 104 ≤ r1 := by
    rw [hr1, le_div_iff hgpos1, ← q2pow_add, show (104 : ℤ) + 2 * (F1 - 52) = 2 * F1 by ring]
    exact hbin1.1
  have hrhigh1 : r1 < q2pow 106 := by
    rw [hr1, div_lt_iff hgpos1, ← q2pow_add, show (106 : ℤ) + 2 * (F1 - 52) = 2 * F1 + 2 by ring]
    exact hbin1.2
  have hrlow2 : q2pow 104 ≤ r2 := by
    rw [hr2, le_div_iff hgpos2, ← q2pow_add, show (104 : ℤ) + 2 * (F2 - 52) = 2 * F2 by ring]
    exact hbin2.1
  have hrhigh2 : r2 < q2pow 106 := by
    rw [hr2, div_lt_iff hgpos2, ← q2pow_add, show (106 : ℤ) + 2 * (F2 - 52) = 2 * F2 + 2 by ring]
    exact hbin2.2
  have h104 : q2pow 104 = ((2 ^ 52 : ℕ) : ℚ) * ((2 ^ 52 : ℕ) : ℚ) := by
    rw [show (104 : ℤ) = 52 + 52 by ring, q2pow_add]
    unfold q2pow
    rw [if_pos (by omega : (0 : ℤ) ≤ 52), show ((52 : ℤ)).toNat = 52 from rfl]
  have h106 : q2pow 106 = ((2 ^ 53 : ℕ) : ℚ) * ((2 ^ 53 : ℕ) : ℚ) := by
    rw [show (106 : ℤ) = 53 + 53 by ring, q2pow_add]
    unfold q2pow
    rw [if_pos (by omega : (0 : ℤ) ≤ 53), show ((53 : ℤ)).toNat = 53 from rfl]
  obtain ⟨hb1l, hb1r⟩ := ratSqrtFloor_bracket hrpos1.le
  obtain ⟨hb2l, hb2r⟩ := ratSqrtFloor_bracket hrpos2.le
  set n1 : ℕ := ratSqrtFloor r1 with hn1
  set n2 : ℕ := ratSqrtFloor r2 with hn2
  have hn1hi : n1 < 2 ^ 53 := by
    by_contra hc
    push_neg at hc
    have hcq : ((2 ^ 53 : ℕ) : ℚ) ≤ (n1 : ℚ) := by exact_mod_cast hc
    have : ((2 ^ 53 : ℕ) : ℚ) * ((2 ^ 53 : ℕ) : ℚ) ≤ (n1 : ℚ) * (n1 : ℚ) := by
      apply mul_le_mul hcq hcq (by positivity) (by positivity)
    rw [← h106] at this
    linarith
  have hn2lo : 2 ^ 52 ≤ n2 := by
    by_contra hc
    push_neg at hc
    have hcq : (n2 : ℚ) + 1 ≤ ((2 ^ 52 : ℕ) : ℚ) := by exact_mod_cast hc
    have : ((n2 : ℚ) + 1) * ((n2 : ℚ) + 1) ≤ ((2 ^ 52 : ℕ) : ℚ) * ((2 ^ 52 : ℕ) : ℚ) := by
      apply mul_le_mul hcq hcq (by positivity) (by positivity)
    rw [← h104] at this
    linarith
  have hm1 : sqrtMant r1 ≤ n1 + 1 := by
    rcases sqrtMant_mem r1 with h | h <;> omega
  have hm2 : n2 ≤ sqrtMant r2 := by
    rcases sqrtMant_mem r2 with h | h <;> omega
  have hgp1 := q2pow_pos (F1 - 52)
  have hgp2 := q2pow_pos (F2 - 52)
  rcases lt_or_eq_of_le hFm with hFlt | hFeq
  · -- different binades for the square root
    have h53 : ((2 ^ 53 : ℕ) : ℚ) = q2pow 53 := by
      unfold q2pow
      rw [if_pos (by omega : (0 : ℤ) ≤ 53), show ((53 : ℤ)).toNat = 53 from rfl]
    have h52 : ((2 ^ 52 : ℕ) : ℚ) = q2pow 52 := by
      unfold q2pow
      rw [if_pos (by omega : (0 : ℤ) ≤ 52), show ((52 : ℤ)).toNat = 52 from rfl]
    have hup : (sqrtMant r1 : ℚ) * q2pow (F1 - 52) ≤ q2pow (F1 + 1) := by
      have hc : (sqrtMant r1 : ℚ) ≤ ((2 ^ 53 : ℕ) : ℚ) := by
        exact_mod_cast (by omega : sqrtMant r1 ≤ 2 ^ 53)
      calc (sqrtMant r1 : ℚ) * q2pow (F1 - 52) ≤ ((2 ^ 53 : ℕ) : ℚ) * q2pow (F1 - 52) :=
        mul_le_mul_of_nonneg_right hc hgp1.le
      _ = q2pow 53 * q2pow (F1 - 52) := by rw [h53]
      _ = q2pow (F1 + 1) := by
          rw [← q2pow_add]
          congr 1
          ring
    have hdown : q2pow F2 ≤ (sqrtMant r2 : ℚ) * q2pow (F2 - 52) := by
      have hc : ((2 ^ 52 : ℕ) : ℚ) ≤ (sqrtMant r2 : ℚ) := by
        exact_mod_cast (by omega : 2 ^ 52 ≤ sqrtMant r2)
      have hsplit : q2pow F2 = ((2 ^ 52 : ℕ) : ℚ) * q2pow (F2 - 52) := by
        rw [h52, ← q2pow_add]
        congr 1
        ring
      rw [hsplit]
      exact mul_le_mul_of_nonneg_right hc hgp2.le
    calc (sqrtMant r1 : ℚ) * q2pow (F1 - 52) ≤ q2pow (F1 + 1) := hup
    _ ≤ q2pow F2 := q2pow_mono (by omega)
    _ ≤ (sqrtMant r2 : ℚ) * q2pow (F2 - 52) := hdown
  · -- same binade
    rw [← hFeq] at hr2 ⊢
    have hr12 : r1 ≤ r2 := by
      rw [hr1, hr2]
      exact (div_le_div_right hgpos1).mpr h12
    have hnm : n1 ≤ n2 := by
      rw [hn1, hn2]
      exact ratSqrtFloor_mono hr12
    apply mul_le_mul_of_nonneg_right _ hgp1.le
    rcases Nat.lt_or_ge n1 n2 with hlt | hge
    · have h7 : sqrtMant r1 ≤ sqrtMant r2 := by
        rcases sqrtMant_mem r2 with h | h <;> omega
      exact_mod_cast h7
    · have hneq : n1 = n2 := by omega
      have h8 := sqrtMant_mono_same hr12 (by rw [← hn1, ← hn2]; omega)
      exact_mod_cast h8

/-- `Rat.floor` agrees with the floor of the `FloorRing` instance. -/
lemma ratFloor_eq_intFloor (q : ℚ) : q.floor = ⌊q⌋ := rfl

/-- The scaled tick exponential `floor(1.0001^t * 2^192)` is monotone. -/
lemma tickN_mono {t1 t2 : ℤ} (h : t1 ≤ t2) :
    ((10001 / 10000 : ℚ) ^ t1 * 2 ^ 192).floor.toNat ≤
    ((10001 / 10000 : ℚ) ^ t2 * 2 ^ 192).floor.toNat := by
  rw [ratFloor_eq_intFloor, ratFloor_eq_intFloor]
  have hb : (1 : ℚ) ≤ 10001 / 10000 := by norm_num
  have hp : (10001 / 10000 : ℚ) ^ t1 ≤ (10001 / 10000 : ℚ) ^ t2 :=
    zpow_le_zpow_right₀ hb h
  have hm : (10001 / 10000 : ℚ) ^ t1 * 2 ^ 192 ≤ (10001 / 10000 : ℚ) ^ t2 * 2 ^ 192 :=
    mul_le_mul_of_nonneg_right hp (by positivity)
  have := Int.floor_le_floor hm
  omega

/-- Squaring step for certified power bounds: a bound on `x^n` squares to a
    bound on `x^(2n)`. -/
lemma sq_bound_step {x b c : ℚ} {m n : ℕ} (hx : 0 ≤ x) (hmn : m = 2 * n)
    (h : x ^ n ≤ b) (hb : b ^ 2 ≤ c) : x ^ m ≤ c := by
  subst hmn
  have e : x ^ (2 * n) = (x ^ n) ^ 2 := by rw [← pow_mul, Nat.mul_comm]
  rw [e]
  have h0 : 0 ≤ x ^ n := pow_nonneg hx n
  nlinarith

/-- A certified upper bound on `1.0001^(2^20)` by twenty squarings, each
    rounded up to thirty decimal places: about `3.442e45`, comfortably below
    the `2^192 / 400040001` (about `1.569e49`) the bottom-tick bound needs. -/
lemma tick_pow_bound : (10001 / 10000 : ℚ) ^ (1048576 : ℕ) ≤
    (3441915971403004067226752711538955218864006894233747591560281643646929572025 : ℚ) / 10 ^ 30 := by
  have hx : (0 : ℚ) ≤ 10001 / 10000 := by norm_num
  have h0 : (10001 / 10000 : ℚ) ^ (1 : ℕ) ≤ (1000100000000000000000000000000 : ℚ) / 10 ^ 30 := by norm_num
  have h1 : (10001 / 10000 : ℚ) ^ (2 : ℕ) ≤ (1000200010000000000000000000000 : ℚ) / 10 ^ 30 :=
    sq_bound_step hx (by norm_num) h0 (by norm_num)
  have h2 : (10001 / 10000 : ℚ) ^ (4 : ℕ) ≤ (1000400060004000100000000000000 : ℚ) / 10 ^ 30 :=
    sq_bound_step hx (by norm_num) h1 (by norm_num)
  have h3 : (10001 / 10000 : ℚ) ^ (8 : ℕ) ≤ (1000800280056007000560028000801 : ℚ) / 10 ^ 30 :=
    sq_bound_step hx (by norm_num) h2 (by norm_num)
  have h4 : (10001 / 10000 : ℚ) ^ (16 : ℕ) ≤ (1001601200560182043688009144131 : ℚ) / 10 ^ 30 :=
    sq_bound_step hx (by norm_num) h3 (by norm_num)
  have h5 : (10001 / 10000 : ℚ) ^ (32 : ℕ) ≤ (1003204964963598014666528690816 : ℚ) / 10 ^ 30 :=
    sq_bound_step hx (by norm_num) h4 (by norm_num)
  have h6 : (10001 / 10000 : ℚ) ^ (64 : ℕ) ≤ (1006420201727613920156533908420 : ℚ) / 10 ^ 30 :=
    sq_bound_step hx (by norm_num) h5 (by norm_num)
  have h7 : (10001 / 10000 : ℚ) ^ (128 : ℕ) ≤ (1012881622445451097078095631957 : ℚ) / 10 ^ 30 :=
    sq_bound_step hx (by norm_num) h6 (by norm_num)
  have h8 : (10001 / 10000 : ℚ) ^ (256 : ℕ) ≤ (1025929181087729343658708608624 : ℚ) / 10 ^ 30 :=
    sq_bound_step hx (by norm_num) h7 (by norm_num)
  have h9 : (10001 / 10000 : ℚ) ^ (512 : ℕ) ≤ (1052530684607338948386589370466 : ℚ) / 10 ^ 30 :=
    sq_bound_step hx (by norm_num) h8 (by norm_num)
  have h10 : (10001 / 10000 : ℚ) ^ (1024 : ℕ) ≤ (1107820842039993613899215811275 : ℚ) / 10 ^ 30 :=
    sq_bound_step hx (by norm_num) h9 (by norm_num)
  have h11 : (10001 / 10000 : ℚ) ^ (2048 : ℕ) ≤ (1227267018058200482050503815526 : ℚ) / 10 ^ 30 :=
    sq_bound_step hx (by norm_num) h10 (by norm_num)
  have h12 : (10001 / 10000 : ℚ) ^ (4096 : ℕ) ≤ (1506184333613467388107955982268 : ℚ) / 10 ^ 30 :=
    sq_bound_step hx (by norm_num) h11 (by norm_num)
  have h13 : (10001 / 10000 : ℚ) ^ (8192 : ℕ) ≤ (2268591246822644826925609862564 : ℚ) / 10 ^ 30 :=
    sq_bound_step hx (by norm_num) h12 (by norm_num)
  have h14 : (10001 / 10000 : ℚ) ^ (16384 : ℕ) ≤ (5146506245160322222537991766116 : ℚ) / 10 ^ 30 :=
    sq_bound_step hx (by norm_num) h13 (by norm_num)
  have h15 : (10001 / 10000 : ℚ) ^ (32768 : ℕ) ≤ (26486526531474198664033811963189 : ℚ) / 10 ^ 30 :=
    sq_bound_step hx (by norm_num) h14 (by norm_num)
  have h16 : (10001 / 10000 : ℚ) ^ (65536 : ℕ) ≤ (701536087702486644953017496461113 : ℚ) / 10 ^ 30 :=
    sq_bound_step hx (by norm_num) h15 (by norm_num)
  have h17 : (10001 / 10000 : ℚ) ^ (131072 : ℕ) ≤ (492152882348911033633683872957077986 : ℚ) / 10 ^ 30 :=
    sq_bound_step hx (by norm_num) h16 (by norm_num)
  have h18 : (10001 / 10000 : ℚ) ^ (262144 : ℕ) ≤ (242214459604341065650571810096821265036657 : ℚ) / 10 ^ 30 :=
    sq_bound_step hx (by norm_num) h17 (by norm_num)
  have h19 : (10001 / 10000 : ℚ) ^ (524288 : ℕ) ≤ (58667844441422969901301591678173347230124093793581583 : ℚ) / 10 ^ 30 :=
    sq_bound_step hx (by norm_num) h18 (by norm_num)
  have h20 : (10001 / 10000 : ℚ) ^ (1048576 : ℕ) ≤ (3441915971403004067226752711538955218864006894233747591560281643646929572025 : ℚ) / 10 ^ 30 :=
    sq_bound_step hx (by norm_num) h19 (by norm_num)
  exact h20

/-- Across the supported tick range the scaled tick exponential stays at or
    above `20001^2 = 400040001`: at the bottom tick,
    `400040001 * 1.0001^887272 ≤ 2^192`, by the certified power bound. -/
lemma tickN_min {t : ℤ} (ht : min_tick ≤ t) :
    400040001 ≤ ((10001 / 10000 : ℚ) ^ t * 2 ^ 192).floor.toNat := by
  have hb : (10001 / 10000 : ℚ) ^ (887272 : ℕ) ≤ (3441915971403004067226752711538955218864006894233747591560281643646929572025 : ℚ) / 10 ^ 30 :=
    le_trans (pow_le_pow_right₀ (by norm_num) (by norm_num)) tick_pow_bound
  have hx : (400040001 : ℚ) ≤ (10001 / 10000 : ℚ) ^ min_tick * 2 ^ 192 := by
    have e1 : (10001 / 10000 : ℚ) ^ min_tick =
        ((10001 / 10000 : ℚ) ^ (887272 : ℕ))⁻¹ := by
      rw [show min_tick = -((887272 : ℕ) : ℤ) by rfl, zpow_neg, zpow_natCast]
    rw [e1]
    have hPpos : (0 : ℚ) < (10001 / 10000 : ℚ) ^ (887272 : ℕ) := by positivity
    rw [inv_mul_eq_div, le_div_iff hPpos]
    calc (400040001 : ℚ) * (10001 / 10000 : ℚ) ^ (887272 : ℕ)
        ≤ 400040001 * ((3441915971403004067226752711538955218864006894233747591560281643646929572025 : ℚ) / 10 ^ 30) :=
          mul_le_mul_of_nonneg_left hb (by norm_num)
    _ ≤ 2 ^ 192 := by norm_num
  have h1 : (400040001 : ℤ) ≤ ⌊(10001 / 10000 : ℚ) ^ min_tick * 2 ^ 192⌋ :=
    Int.le_floor.mpr (by exact_mod_cast hx)
  have h2 := tickN_mono ht
  rw [ratFloor_eq_intFloor, ratFloor_eq_intFloor] at h2
  rw [ratFloor_eq_intFloor]
  omega

/-- One tick up strictly increases the exact square-root price: the relative
    step `1.0001` beats the `+1` quantization once the value is at least
    `20001^2`. -/
lemma tick_to_sqrtp_step {t : ℤ} (ht : min_tick ≤ t) :
    tick_to_sqrtp t < tick_to_sqrtp (t + 1) := by
  unfold tick_to_sqrtp
  rw [ratFloor_eq_intFloor, ratFloor_eq_intFloor]
  set x : ℚ := (10001 / 10000 : ℚ) ^ t * 2 ^ 192 with hx
  have hxpos : 0 < x := by rw [hx]; positivity
  set N : ℕ := ⌊x⌋.toNat with hN
  have hN4 : 400040001 ≤ N := by
    have := tickN_min ht
    rw [ratFloor_eq_intFloor] at this
    exact this
  set s : ℕ := nsqrt N with hs
  have hs201 : 20001 ≤ s := by
    have h1 : nsqrt 400040001 ≤ nsqrt N := nsqrt_le_nsqrt hN4
    have h2 : nsqrt 400040001 = 20001 := by
      rw [show (400040001 : ℕ) = 20001 * 20001 by norm_num]
      exact nsqrt_sq 20001
    omega
  have hs2 : s * s ≤ N := (nsqrt_spec N).1
  have hNx : (N : ℚ) ≤ x := by
    have h0 : (0 : ℤ) ≤ ⌊x⌋ := Int.floor_nonneg.mpr hxpos.le
    have hc : ((N : ℕ) : ℚ) = ((⌊x⌋ : ℤ) : ℚ) := by
      rw [hN]
      exact_mod_cast congrArg Int.cast (Int.toNat_of_nonneg h0)
    rw [hc]
    exact Int.floor_le x
  have hx2 : (10001 / 10000 : ℚ) ^ (t + 1) * 2 ^ 192 = x * (10001 / 10000) := by
    rw [hx, zpow_add_one₀ (by norm_num : (10001 / 10000 : ℚ) ≠ 0)]
    ring
  have hkey : (((s + 1) * (s + 1) : ℕ) : ℚ) ≤ x * (10001 / 10000) := by
    have hsQ : (20001 : ℚ) ≤ (s : ℚ) := by exact_mod_cast hs201
    have hs2Q : ((s : ℚ)) * s ≤ (N : ℚ) := by exact_mod_cast hs2
    push_cast
    nlinarith [hNx, hs2Q, hsQ]
  have hfl : (((s + 1) * (s + 1) : ℕ) : ℤ) ≤
      ⌊(10001 / 10000 : ℚ) ^ (t + 1) * 2 ^ 192⌋ := by
    rw [hx2]
    exact Int.le_floor.mpr (by exact_mod_cast hkey)
  apply nsqrt_lt_nsqrt
  generalize hg : (s + 1) * (s + 1) = m at hfl ⊢
  omega

/-- Strict monotonicity of the exact tick conversion above the bottom tick. -/
lemma tick_to_sqrtp_lt {t1 t2 : ℤ} (h1 : min_tick ≤ t1) (hlt : t1 < t2) :
    tick_to_sqrtp t1 < tick_to_sqrtp t2 := by
  have hstep := tick_to_sqrtp_step h1
  have hmono : tick_to_sqrtp (t1 + 1) ≤ tick_to_sqrtp t2 := by
    unfold tick_to_sqrtp
    exact nsqrt_le_nsqrt (tickN_mono (by omega))
  omega

/-- A successful int-to-double conversion is a successful rounding. -/
lemma toFQ_ok {p q : ℚ} (h : toFQ p = .ok q) : roundQ p = some q := by
  unfold toFQ at h
  rcases hr : roundQ p with _ | r
  · rw [hr] at h
    cases h
  · rw [hr] at h
    injection h with h
    rw [h]

/-- Truncation toward zero is monotone from a nonnegative start. -/
lemma ratTrunc_mono_nonneg {r1 r2 : ℚ} (h0 : 0 ≤ r1) (h : r1 ≤ r2) :
    ratTrunc r1 ≤ ratTrunc r2 := by
  unfold ratTrunc
  rw [if_pos h0, if_pos (le_trans h0 h)]
  exact Int.floor_le_floor h

/-- A successful truncation of a finite float product determines the value:
    the rounding succeeded and the result is its truncation. -/
lemma fmul_fin_ok {x y : ℚ} {v : ℤ}
    (h : pyInt (.float (fmul (.fin x) (.fin y))) = .ok v) :
    ∃ r : ℚ, roundQ (x * y) = some r ∧ v = ratTrunc r := by
  simp only [fmul] at h
  rcases hm : roundQ (x * y) with _ | r
  · rw [hm] at h
    cases h
  · rw [hm] at h
    unfold pyInt at h
    injection h with h
    exact ⟨r, rfl, h.symm⟩

/-- toFQ of the Q96 constant is exact. -/
lemma toFQ_q96 : toFQ ((((q96 : ℕ) : ℤ)) : ℚ) = .ok ((((q96 : ℕ) : ℤ)) : ℚ) := by decide

/-- Monotonicity of `price_to_sqrtp` on positive prices, through the whole
    conversion chain: price rounding, rounded square root, multiplication by
    `2^96`, truncation. -/
lemma price_to_sqrtp_mono {p1 p2 : ℚ} {v1 v2 : ℤ} (h0 : 0 < p1) (h12 : p1 ≤ p2)
    (e1 : price_to_sqrtp p1 = .ok v1) (e2 : price_to_sqrtp p2 = .ok v2) : v1 ≤ v2 := by
  unfold price_to_sqrtp at e1 e2
  obtain ⟨q1, hq1, e1⟩ := bind_ok e1
  obtain ⟨q2, hq2, e2⟩ := bind_ok e2
  have hr1 := toFQ_ok hq1
  have hr2 := toFQ_ok hq2
  have hq1n : 0 ≤ q1 := roundQ_nonneg h0.le hr1
  have hq2n : 0 ≤ q2 := roundQ_nonneg (le_trans h0.le h12) hr2
  rw [if_neg (not_lt.mpr hq1n)] at e1
  rw [if_neg (not_lt.mpr hq2n)] at e2
  have hqm : q1 ≤ q2 := by
    have hp1 : roundPos p1 = some q1 := by
      unfold roundQ at hr1
      rwa [if_pos h0.le] at hr1
    have hp2 : roundPos p2 = some q2 := by
      unfold roundQ at hr2
      rwa [if_pos (le_trans h0.le h12)] at hr2
    exact roundPos_mono h0 h12 hp1 hp2
  have hs1n : 0 ≤ sqrtPos q1 := sqrtPos_nonneg q1
  have hs2n : 0 ≤ sqrtPos q2 := sqrtPos_nonneg q2
  have hsm : sqrtPos q1 ≤ sqrtPos q2 := by
    rcases lt_or_eq_of_le hq1n with hpos | hzero
    · exact sqrtPos_mono hpos hqm
    · have hz1 : sqrtPos q1 = 0 := by
        unfold sqrtPos
        rw [if_pos (le_of_eq hzero.symm)]
      rw [hz1]
      exact hs2n
  obtain ⟨t1, ht1, e1⟩ := bind_ok e1
  obtain ⟨t2, ht2, e2⟩ := bind_ok e2
  simp only [pyMul, toFQ_q96, ok_bind, Except.ok.injEq] at ht1 ht2
  rw [← ht1] at e1
  rw [← ht2] at e2
  obtain ⟨r1, hm1, hv1⟩ := fmul_fin_ok e1
  obtain ⟨r2, hm2, hv2⟩ := fmul_fin_ok e2
  have hc96n : (0 : ℚ) ≤ ((((q96 : ℕ) : ℤ)) : ℚ) := by positivity
  have hprod : sqrtPos q1 * ((((q96 : ℕ) : ℤ)) : ℚ) ≤
      sqrtPos q2 * ((((q96 : ℕ) : ℤ)) : ℚ) :=
    mul_le_mul_of_nonneg_right hsm hc96n
  have hr1n : 0 ≤ r1 := roundQ_nonneg (mul_nonneg hs1n hc96n) hm1
  have hrm : r1 ≤ r2 := by
    rcases lt_or_eq_of_le (mul_nonneg hs1n hc96n) with hpp | hpz
    · have hp1 : roundPos (sqrtPos q1 * ((((q96 : ℕ) : ℤ)) : ℚ)) = some r1 := by
        unfold roundQ at hm1
        rwa [if_pos (mul_nonneg hs1n hc96n)] at hm1
      have hp2 : roundPos (sqrtPos q2 * ((((q96 : ℕ) : ℤ)) : ℚ)) = some r2 := by
        unfold roundQ at hm2
        rwa [if_pos (mul_nonneg hs2n hc96n)] at hm2
      exact roundPos_mono hpp hprod hp1 hp2
    · have hz : roundQ (sqrtPos q1 * ((((q96 : ℕ) : ℤ)) : ℚ)) = some 0 := by
        rw [← hpz]
        exact roundQ_zero
      rw [hz] at hm1
      injection hm1 with hm1
      rw [← hm1]
      exact roundQ_nonneg (mul_nonneg hs2n hc96n) hm2
  rw [hv1, hv2]
  exact ratTrunc_mono_nonneg hr1n hrm

/-- C8 counterexample: `price_to_sqrtp` is not strictly increasing in the
    price: the distinct positive prices `1` and `1 + 2^(-52)` (the latter the
    very next double above 1) produce the same converted value `2^96`,
    because the square root rounds back down to `1.0`. -/
theorem price_to_sqrtp_not_strict_counterexample :
    (1 : ℚ) < 1 + q2pow (-52) ∧
    price_to_sqrtp 1 = .ok (2 ^ 96) ∧
    price_to_sqrtp (1 + q2pow (-52)) = .ok (2 ^ 96) :=
  ⟨by decide, by decide, by decide⟩

/-- C8 (amended): the exact tick conversion `floor(1.0001^(t/2) * 2^96)` is
    strictly increasing over the tick range `[-887272, 887272]`, and
    `price_to_sqrtp` is monotone (but, by the counterexample, not strictly):
    positive prices in weakly increasing order give weakly increasing
    returned values whenever both conversions return a value. -/
theorem sqrtp_conversion_monotonicity :
    (∀ t1 t2 : ℤ, min_tick ≤ t1 → t1 < t2 → t2 ≤ max_tick →
      tick_to_sqrtp t1 < tick_to_sqrtp t2) ∧
    (∀ (p1 p2 : ℚ) (v1 v2 : ℤ), 0 < p1 → p1 ≤ p2 →
      price_to_sqrtp p1 = .ok v1 → price_to_sqrtp p2 = .ok v2 → v1 ≤ v2) := by
  constructor
  · intro t1 t2 h1 hlt _
    exact tick_to_sqrtp_lt h1 hlt
  · intro p1 p2 v1 v2 h0 h12 e1 e2
    exact price_to_sqrtp_mono h0 h12 e1 e2

/-- Witness for the amended C8 at ticks 0 < 1 and at prices 1 ≤ 4 (whose
    conversions evaluate to 2^96 and 2^97). -/
theorem sqrtp_conversion_monotonicity_witness :
    (min_tick ≤ 0 ∧ (0 : ℤ) < 1 ∧ (1 : ℤ) ≤ max_tick ∧
      tick_to_sqrtp 0 < tick_to_sqrtp 1) ∧
    ((0 : ℚ) < 1 ∧ (1 : ℚ) ≤ 4 ∧ price_to_sqrtp 1 = .ok (2 ^ 96) ∧
      price_to_sqrtp 4 = .ok (2 ^ 97) ∧ (2 ^ 96 : ℤ) ≤ 2 ^ 97) :=
  ⟨⟨by decide, by decide, by decide,
    sqrtp_conversion_monotonicity.1 0 1 (by decide) (by decide) (by decide)⟩,
   ⟨by decide, by decide, by decide, by decide,
    sqrtp_conversion_monotonicity.2 1 4 (2 ^ 96) (2 ^ 97) (by decide) (by decide)
      (by decide) (by decide)⟩⟩

/-- C9: the source applies no range check to the tick argument:
    `tick_to_sqrtp` still returns an ordinary (and enormous) square-root
    price one past the declared maximum tick, instead of failing with a
    range error — the constants `min_tick`/`max_tick` are declared but never
    consulted. -/
theorem tick_range_unchecked : 2 ^ 96 ≤ tick_to_sqrtp (max_tick + 1) := by
  have h0 : tick_to_sqrtp 0 = 2 ^ 96 := by decide
  have hm : tick_to_sqrtp 0 ≤ tick_to_sqrtp (max_tick + 1) := by
    unfold tick_to_sqrtp
    exact nsqrt_le_nsqrt (tickN_mono (by decide))
  omega

end Unimath
